import Mathlib

/-!
Verification of the simplicial mesh engine (`Mesh.cxx`) against its
natural-language specification.

The embedding is a shallow one, in exact rational arithmetic:

* a `Point` is a `List ℚ`; a `Sample` of n-dimensional points is a
  `List (List ℚ)`; an `Indices` is a `List ℕ`; an `IndicesCollection` is a
  `List (List ℕ)`;
* the machine scalar type (C++ `double`) is modelled by `ℚ`: every
  arithmetic step of the code that is exact on reals is represented by the
  corresponding exact rational operation, and `SpecFunc::MaxScalar` (a huge
  sentinel used only as a fold seed) is modelled by folding from the first
  real element instead;
* C++ exceptions are modelled by `Except Err`; out-parameters are modelled
  as returned values; the mutation of the lazily computed mutable caches of
  `Mesh` is modelled by returning the updated `Mesh` record;
* `matrix.solveLinearSystem(v, false)` (an external LAPACK-backed dense
  solve) is modelled as the unique solution of the square system when the
  matrix is invertible — computed by Cramer's rule, which agrees with any
  exact solver — and an error on a singular matrix.
-/

/-- Coordinate access `p[k]` of a point. Out-of-range access (undefined
behaviour in C++, never exercised under the hypotheses of the theorems
below) defaults to `0`. -/
def coordQ (p : List ℚ) (k : ℕ) : ℚ := p.getD k 0

/-- Minimum of a list of rationals, folding from the head; `0` for an empty
list (the C++ code seeds the fold with `SpecFunc::MaxScalar`, so on a
nonempty list the result is the same). -/
def listMinQ : List ℚ → ℚ
  | [] => 0
  | x :: xs => xs.foldl min x

/-- Maximum of a list of rationals, folding from the head; `0` for an empty
list (the C++ code seeds with `-SpecFunc::MaxScalar`). -/
def listMaxQ : List ℚ → ℚ
  | [] => 0
  | x :: xs => xs.foldl max x

/-- The error taxonomy of the exceptions the modelled code can raise.
`invalidArgument a b` records the two numbers the message of
`InvalidArgumentException` names (for index errors: the offending index and
the current bound; for dimension errors: the dimension got and the one
expected). `outOfRange` is the separate `OutOfRangeException` class of the
library, listed here so that statements can distinguish the two kinds.
`singular` models the exception of the external dense solver on a singular
matrix. -/
inductive Err where
  | invalidArgument (got bound : ℕ)
  | outOfRange (got bound : ℕ)
  | singular
  deriving DecidableEq

/-- The mesh record: the two owned sets (`vertices_`, `simplices_`), the
spatial index `tree_` (modelled by the sample the k-d tree was built over,
`none` for a default-constructed empty tree), the two lazily built caches
`verticesToSimplices_` and the per-simplex bounding boxes, and the memoized
volume with its flag. `dim` is the `dimension_` fixed at construction. -/
structure Mesh where
  dim : ℕ
  vertices : List (List ℚ)
  simplices : List (List ℕ)
  tree : Option (List (List ℚ))
  verticesToSimplices : List (List ℕ)
  lowerBoundingBoxSimplices : List (List ℚ)
  upperBoundingBoxSimplices : List (List ℚ)
  isAlreadyComputedVolume : Bool
  volume : ℚ
  deriving DecidableEq

/-- Number of vertices (`Mesh::getVerticesNumber`). -/
def Mesh.getVerticesNumber (m : Mesh) : ℕ := m.vertices.length

/-- Number of simplices (`Mesh::getSimplicesNumber`). -/
def Mesh.getSimplicesNumber (m : Mesh) : ℕ := m.simplices.length

/-- Vertex set replacement (`Mesh::setVertices`): drops the memoized-volume
flag, replaces the vertices, and empties the incidence and bounding-box
caches. The description bookkeeping of the C++ code is out of scope. Note
that `tree_` is not touched. -/
def Mesh.setVertices (m : Mesh) (vertices : List (List ℚ)) : Mesh :=
  { m with
    isAlreadyComputedVolume := false
    vertices := vertices
    verticesToSimplices := []
    lowerBoundingBoxSimplices := []
    upperBoundingBoxSimplices := [] }

/-- Spatial-index construction (`Mesh::computeKDTree`): builds the k-d tree
over the current vertices. -/
def Mesh.computeKDTree (m : Mesh) : Mesh :=
  { m with tree := some m.vertices }

/-- Single-vertex read (`Mesh::getVertex`): an index at or beyond the number
of vertices raises `InvalidArgumentException` naming the index and the
number of vertices. -/
def Mesh.getVertex (m : Mesh) (index : ℕ) : Except Err (List ℚ) :=
  if index ≥ m.getVerticesNumber then
    .error (.invalidArgument index m.getVerticesNumber)
  else .ok (m.vertices.getD index [])

/-- Single-vertex write (`Mesh::setVertex`): drops the memoized-volume flag
and writes the vertex. The C++ code performs no bound check here
(`vertices_[index] = vertex`); the out-of-range write, undefined behaviour
in C++, is modelled by `List.set`, which leaves the list unchanged. -/
def Mesh.setVertex (m : Mesh) (index : ℕ) (vertex : List ℚ) : Mesh :=
  { m with
    isAlreadyComputedVolume := false
    vertices := m.vertices.set index vertex }

/-- Simplex set replacement (`Mesh::setSimplices`): a no-op when the new
collection equals the current one by value; otherwise replaces the set and
empties the incidence and bounding-box caches. Neither branch touches the
memoized-volume state or the spatial index. -/
def Mesh.setSimplices (m : Mesh) (simplices : List (List ℕ)) : Mesh :=
  if simplices = m.simplices then m
  else
    { m with
      simplices := simplices
      verticesToSimplices := []
      lowerBoundingBoxSimplices := []
      upperBoundingBoxSimplices := [] }

/-- Single-simplex read (`Mesh::getSimplex`): an index at or beyond the
number of simplices raises `InvalidArgumentException` naming the index and
the number of simplices. -/
def Mesh.getSimplex (m : Mesh) (index : ℕ) : Except Err (List ℕ) :=
  if index ≥ m.getSimplicesNumber then
    .error (.invalidArgument index m.getSimplicesNumber)
  else .ok (m.simplices.getD index [])

/-- Modelled from the spec: the out-of-line `Indices::check(bound)` of the
collaborating container library is not part of the staged sources; per the
spec, validity checking enforces that every index referenced by a simplex
is below the number of vertices, while duplicate vertex indices inside a
simplex are documented but unchecked. -/
def indicesCheck (s : List ℕ) (bound : ℕ) : Bool := s.all (· < bound)

/-- The simplex-checking loop of `Mesh::checkValidity`, carrying the running
simplex number `i` for the error message: a simplex whose size differs from
`dimension + 1`, or that refers to an unknown vertex, raises
`InvalidArgumentException`. -/
def checkSimplicesFrom (dim nVertices : ℕ) : ℕ → List (List ℕ) → Except Err Unit
  | _, [] => .ok ()
  | i, s :: rest =>
    if s.length ≠ dim + 1 then .error (.invalidArgument i s.length)
    else if ¬ indicesCheck s nVertices then .error (.invalidArgument i nVertices)
    else checkSimplicesFrom dim nVertices (i + 1) rest

/-- Mesh validity check (`Mesh::checkValidity`): checks every simplex in
order. -/
def Mesh.checkValidity (m : Mesh) : Except Err Unit :=
  checkSimplicesFrom m.dim m.getVerticesNumber 0 m.simplices

/-- Boolean validity query (`Mesh::isValid`): catches the exception of
`checkValidity` and converts it to `false`. -/
def Mesh.isValid (m : Mesh) : Bool :=
  match m.checkValidity with
  | .ok _ => true
  | .error _ => false

theorem checkSimplicesFrom_ok_iff (dim nVertices : ℕ) :
    ∀ (i : ℕ) (l : List (List ℕ)),
      checkSimplicesFrom dim nVertices i l = .ok () ↔
        ∀ s ∈ l, s.length = dim + 1 ∧ ∀ v ∈ s, v < nVertices
  | _, [] => by simp [checkSimplicesFrom]
  | i, s :: rest => by
    have hrec := checkSimplicesFrom_ok_iff dim nVertices (i + 1) rest
    have hic : (indicesCheck s nVertices = true) ↔ ∀ v ∈ s, v < nVertices := by
      simp [indicesCheck]
    by_cases h1 : s.length = dim + 1
    · by_cases h2 : ∀ v ∈ s, v < nVertices
      · rw [checkSimplicesFrom, if_neg (by simp [h1]), if_neg (by simp [hic.mpr h2]), hrec]
        simp only [List.mem_cons]
        constructor
        · rintro h t (rfl | ht)
          · exact ⟨h1, h2⟩
          · exact h t ht
        · intro h t ht
          exact h t (Or.inr ht)
      · rw [checkSimplicesFrom, if_neg (by simp [h1]), if_pos (by simp [hic, h2])]
        constructor
        · intro h
          simp at h
        · intro h
          exact absurd (h s (List.mem_cons_self s rest)).2 h2
    · rw [checkSimplicesFrom, if_pos (by simp [h1])]
      constructor
      · intro h
        simp at h
      · intro h
        exact absurd (h s (List.mem_cons_self s rest)).1 h1

/-- Squared Euclidean distance between two points of equal dimension (the
C++ `(point - vertex).normSquare()`). -/
def distSq (p q : List ℚ) : ℚ := ((p.zip q).map fun c => (c.1 - c.2) ^ 2).sum

/-- One step of the linear scan of `NearestFunctor::operator()`: the running
state is `none` before any vertex was visited (the C++ seed is the sentinel
distance `SpecFunc::MaxScalar`, larger than any squared distance, with index
`0`) and `some (d, i)` afterwards; a vertex replaces the running minimum
only when strictly closer. -/
def scanStep (p : List ℚ) (vs : List (List ℚ)) (acc : Option (ℚ × ℕ)) (i : ℕ) :
    Option (ℚ × ℕ) :=
  let d := distSq p (vs.getD i [])
  match acc with
  | none => some (d, i)
  | some di => if d < di.1 then some (d, i) else some di

/-- The whole-range sequential scan: fold of `scanStep` over the vertex
indices in increasing order. -/
def bruteScan (p : List ℚ) (vs : List (List ℚ)) : Option (ℚ × ℕ) :=
  (List.range vs.length).foldl (scanStep p vs) none

/-- The reduction merge of `NearestFunctor::join`: the other partition's
minimum replaces the local one only when strictly smaller. -/
def joinMin (a b : Option (ℚ × ℕ)) : Option (ℚ × ℕ) :=
  match a, b with
  | none, b => b
  | some di, none => some di
  | some di, some dj => if dj.1 < di.1 then some dj else some di

/-- The nearest index the brute-force parallel reduction returns: the index
of the scan result, `0` (the untouched functor seed) when there is no
vertex. -/
def bruteNearest (p : List ℚ) (vs : List (List ℚ)) : ℕ :=
  ((bruteScan p vs).map Prod.snd).getD 0

/-- Emptiness of the spatial index (`tree_.isEmpty()`): a
default-constructed tree, or one built over an empty sample, is empty. -/
def treeIsEmpty : Option (List (List ℚ)) → Bool
  | none => true
  | some s => s.isEmpty

/-- Modelled from the spec: the external k-d tree collaborator
(`KDTree::getNearestNeighbourIndex`) is out of the staged sources; per the
spec it returns the index of the vertex of its build sample nearest to the
query point, which the brute-force scan also computes. -/
def treeQuery (sample : List (List ℚ)) (p : List ℚ) : ℕ := bruteNearest p sample

/-- Nearest-vertex query (`Mesh::getNearestVertexIndex`): rejects a point
of the wrong dimension with `InvalidArgumentException` naming the dimension
got and the mesh dimension; delegates to the spatial index when one is
built; otherwise performs the parallel brute-force scan over the
vertices. -/
def Mesh.getNearestVertexIndex (m : Mesh) (p : List ℚ) : Except Err ℕ :=
  if p.length ≠ m.dim then .error (.invalidArgument p.length m.dim)
  else if ¬ treeIsEmpty m.tree then .ok (treeQuery (m.tree.getD []) p)
  else .ok (bruteNearest p m.vertices)

/-- One inner step of the cache-building loop of
`Mesh::getVerticesToSimplicesMap`: append the simplex number `i` to the
incidence list of vertex `v` (an out-of-range `v`, undefined behaviour in
C++ and excluded by validity, leaves the collection unchanged). -/
def addVertexEntry (i : ℕ) (acc : List (List ℕ)) (v : ℕ) : List (List ℕ) :=
  acc.set v (acc.getD v [] ++ [i])

/-- The outer loop of `Mesh::getVerticesToSimplicesMap`, over the simplices
in increasing order of simplex number `i`. -/
def buildV2S : ℕ → List (List ℕ) → List (List ℕ) → List (List ℕ)
  | _, [], acc => acc
  | i, s :: rest, acc => buildV2S (i + 1) rest (s.foldl (addVertexEntry i) acc)

/-- The freshly computed vertex-to-simplices incidence map: one (initially
empty) list per vertex, filled by one ascending pass over the simplices. -/
def computeVerticesToSimplices (m : Mesh) : List (List ℕ) :=
  buildV2S 0 m.simplices (List.replicate m.vertices.length [])

/-- Per-simplex lower bounding-box corner, as accumulated by the same pass
(a running `min` over the simplex's vertex coordinates, seeded with the
sentinel `SpecFunc::MaxScalar`; exact on a nonempty simplex). -/
def simplexLowerBB (m : Mesh) (s : List ℕ) : List ℚ :=
  (List.range m.dim).map fun k => listMinQ (s.map fun v => coordQ (m.vertices.getD v []) k)

/-- Per-simplex upper bounding-box corner (running `max`, seeded with
`-SpecFunc::MaxScalar`). -/
def simplexUpperBB (m : Mesh) (s : List ℕ) : List ℚ :=
  (List.range m.dim).map fun k => listMaxQ (s.map fun v => coordQ (m.vertices.getD v []) k)

/-- The freshly computed per-simplex lower bounding boxes. -/
def computeLowerBBs (m : Mesh) : List (List ℚ) := m.simplices.map (simplexLowerBB m)

/-- The freshly computed per-simplex upper bounding boxes. -/
def computeUpperBBs (m : Mesh) : List (List ℚ) := m.simplices.map (simplexUpperBB m)

/-- Lazy incidence-cache accessor (`Mesh::getVerticesToSimplicesMap`):
returns the cached map when it is nonempty; otherwise computes the map and
both bounding-box tables in one pass and stores all three (the mutation of
the mutable members is modelled by returning the updated mesh). -/
def Mesh.getVerticesToSimplicesMap (m : Mesh) : Mesh × List (List ℕ) :=
  if m.verticesToSimplices.length > 0 then (m, m.verticesToSimplices)
  else
    let v2s := computeVerticesToSimplices m
    ({ m with
        verticesToSimplices := v2s
        lowerBoundingBoxSimplices := computeLowerBBs m
        upperBoundingBoxSimplices := computeUpperBBs m }, v2s)

/-- Cache coherence: the reachable cache states of a mesh under the public
interface — the caches are empty, or they hold exactly the recomputation
from the current vertex and simplex sets. -/
def Mesh.cachesCoherent (m : Mesh) : Prop :=
  m.verticesToSimplices = [] ∨
    (m.verticesToSimplices = computeVerticesToSimplices m ∧
      m.lowerBoundingBoxSimplices = computeLowerBBs m ∧
      m.upperBoundingBoxSimplices = computeUpperBBs m)

theorem buildV2S_length : ∀ (i : ℕ) (ss acc : List (List ℕ)),
    (buildV2S i ss acc).length = acc.length
  | _, [], _ => rfl
  | i, s :: rest, acc => by
    rw [buildV2S, buildV2S_length (i + 1) rest]
    induction s generalizing acc with
    | nil => rfl
    | cons v t ih => rw [List.foldl_cons, ih, addVertexEntry, List.length_set]

theorem getVerticesToSimplicesMap_eq (m : Mesh) (h : m.cachesCoherent) :
    m.getVerticesToSimplicesMap =
      ({ m with
          verticesToSimplices := computeVerticesToSimplices m
          lowerBoundingBoxSimplices := computeLowerBBs m
          upperBoundingBoxSimplices := computeUpperBBs m },
        computeVerticesToSimplices m) := by
  rcases h with h | ⟨h1, h2, h3⟩
  · rw [Mesh.getVerticesToSimplicesMap, if_neg (by simp [h])]
  · rw [Mesh.getVerticesToSimplicesMap]
    by_cases hz : m.verticesToSimplices.length > 0
    · rw [if_pos hz, ← h1, ← h2, ← h3]
    · have : m.verticesToSimplices = [] := List.length_eq_zero.mp (by omega)
      rw [if_neg hz, ← h1, ← h2, ← h3]

/-- Executable determinant by cofactor expansion along the first row,
kernel-evaluable on concrete rational matrices; proved equal to the
abstract determinant below. -/
def detQ : (n : ℕ) → Matrix (Fin n) (Fin n) ℚ → ℚ
  | 0, _ => 1
  | n + 1, M =>
    ∑ j : Fin (n + 1), (-1) ^ (j : ℕ) * M 0 j * detQ n (M.submatrix Fin.succ j.succAbove)

theorem detQ_eq_det : ∀ (n : ℕ) (M : Matrix (Fin n) (Fin n) ℚ), detQ n M = M.det
  | 0, M => by simp [detQ, Matrix.det_fin_zero]
  | n + 1, M => by
    rw [Matrix.det_succ_row_zero, detQ]
    exact Finset.sum_congr rfl fun j _ => by rw [detQ_eq_det n]

/-- Coordinate `k` of vertex number `j` of simplex number `index`
(`vertices_(simplices_[index][j], k)`). -/
def vtx (m : Mesh) (index j k : ℕ) : ℚ :=
  coordQ (m.vertices.getD ((m.simplices.getD index []).getD j 0) []) k

/-- The square simplex matrix of `Mesh::buildSimplexMatrix`: vertex
coordinates as columns with an added last row of ones. -/
def simplexMatrixOf (m : Mesh) (index : ℕ) :
    Matrix (Fin (m.dim + 1)) (Fin (m.dim + 1)) ℚ :=
  Matrix.of fun i j => if (i : ℕ) < m.dim then vtx m index (j : ℕ) (i : ℕ) else 1

/-- Bound-checked simplex-matrix accessor (`Mesh::buildSimplexMatrix`). -/
def Mesh.buildSimplexMatrix (m : Mesh) (index : ℕ) :
    Except Err (Matrix (Fin (m.dim + 1)) (Fin (m.dim + 1)) ℚ) :=
  if index ≥ m.getSimplicesNumber then
    .error (.invalidArgument index m.getSimplicesNumber)
  else .ok (simplexMatrixOf m index)

/-- Volume of one simplex (`Mesh::computeSimplexVolume`, pure part): the
closed forms for dimensions 1 and 2, and for the general case the
determinant route — the C++ code computes
`exp(logAbsoluteDeterminant - LogGamma(dimension + 1))`, which in exact
arithmetic is the absolute determinant of the simplex matrix divided by
the factorial of the dimension. -/
def simplexVolume (m : Mesh) (index : ℕ) : ℚ :=
  if m.dim = 1 then |vtx m index 1 0 - vtx m index 0 0|
  else if m.dim = 2 then
    (1 / 2) *
      |(vtx m index 2 0 - vtx m index 0 0) * (vtx m index 1 1 - vtx m index 0 1) -
        (vtx m index 0 0 - vtx m index 1 0) * (vtx m index 2 1 - vtx m index 0 1)|
  else |detQ (m.dim + 1) (simplexMatrixOf m index)| / (Nat.factorial m.dim : ℚ)

/-- Bound-checked per-simplex volume (`Mesh::computeSimplexVolume`). -/
def Mesh.computeSimplexVolume (m : Mesh) (index : ℕ) : Except Err ℚ :=
  if index ≥ m.getSimplicesNumber then
    .error (.invalidArgument index m.getSimplicesNumber)
  else .ok (simplexVolume m index)

/-- Total-volume computation (`Mesh::computeVolume`): the parallel
reduction of `VolumeFunctor` sums the per-simplex volumes (exact rational
addition is associative and commutative, so the reduction equals the plain
sum); it also raises the memoized-volume flag of the mutable state. -/
def Mesh.computeVolume (m : Mesh) : Mesh × ℚ :=
  ({ m with isAlreadyComputedVolume := true },
    ((List.range m.getSimplicesNumber).map fun i => simplexVolume m i).sum)

/-- Memoized volume accessor (`Mesh::getVolume`): recomputes only when the
flag is down. -/
def Mesh.getVolume (m : Mesh) : Mesh × ℚ :=
  if m.isAlreadyComputedVolume then (m, m.volume)
  else
    let mv := m.computeVolume
    ({ mv.1 with volume := mv.2 }, mv.2)

/-- Integration weights (`Mesh::computeWeights`): per vertex, the sum of
the volumes of the simplices its incidence list names, divided by
`dimension + 1`. -/
def Mesh.computeWeights (m : Mesh) : List ℚ :=
  let simplicesVolume := (List.range m.getSimplicesNumber).map fun i => simplexVolume m i
  let v2s := (m.getVerticesToSimplicesMap).2
  (List.range m.getVerticesNumber).map fun i =>
    ((v2s.getD i []).map fun j => simplicesVolume.getD j 0).sum / (m.dim + 1)

/-- A concrete sample mesh: the unit interval in dimension 1, two vertices,
one segment simplex, freshly constructed caches. -/
def sampleMesh : Mesh :=
  { dim := 1
    vertices := [[0], [1]]
    simplices := [[0, 1]]
    tree := none
    verticesToSimplices := []
    lowerBoundingBoxSimplices := []
    upperBoundingBoxSimplices := []
    isAlreadyComputedVolume := false
    volume := 0 }

/-- Claim C3, counterexample: on the sample mesh (two vertices, one
simplex), reading vertex 5 fails — but with the `InvalidArgument` error
kind, not the `OutOfRange` kind the claim names; and the out-of-range
single-vertex write `setVertex` raises no error at all (here it leaves the
mesh unchanged: the flag it drops is already down and the write is out of
range). -/
theorem getVertex_error_kind_counterexample :
    sampleMesh.getVertex 5 = .error (.invalidArgument 5 2) ∧
    sampleMesh.getVertex 5 ≠ .error (.outOfRange 5 2) ∧
    sampleMesh.setVertex 5 [7] = sampleMesh := by
  refine ⟨?_, by simp [Mesh.getVertex, sampleMesh, Mesh.getVerticesNumber], ?_⟩
  · simp [Mesh.getVertex, sampleMesh, Mesh.getVerticesNumber]
  · simp [Mesh.setVertex, sampleMesh]

/-- Claim C3, amended: accessing a single vertex or a single simplex with
an index at or beyond the respective count fails with an
`InvalidArgument` error naming the offending index and the current bound
(the library's separate `OutOfRange` error kind is not used here), and
`setVertex` performs no bound check at all — it raises nothing and simply
drops the volume flag and writes through `List.set`. -/
theorem Mesh.getVertex_getSimplex_invalidArgument (m : Mesh) (index : ℕ)
    (hv : index ≥ m.getVerticesNumber) (hs : index ≥ m.getSimplicesNumber) :
    m.getVertex index = .error (.invalidArgument index m.getVerticesNumber) ∧
    m.getSimplex index = .error (.invalidArgument index m.getSimplicesNumber) ∧
    ∀ vertex : List ℚ,
      m.setVertex index vertex =
        { m with isAlreadyComputedVolume := false,
                 vertices := m.vertices.set index vertex } := by
  exact ⟨by rw [Mesh.getVertex, if_pos hv], by rw [Mesh.getSimplex, if_pos hs],
    fun vertex => rfl⟩

/-- Claim C3, witness at a concrete input: index 5 on the two-vertex,
one-simplex sample mesh. -/
theorem getVertex_getSimplex_invalidArgument_witness :
    sampleMesh.getVertex 5 = .error (.invalidArgument 5 2) ∧
    sampleMesh.getSimplex 5 = .error (.invalidArgument 5 1) ∧
    ∀ vertex : List ℚ,
      sampleMesh.setVertex 5 vertex =
        { sampleMesh with isAlreadyComputedVolume := false,
                          vertices := sampleMesh.vertices.set 5 vertex } := by
  have h := Mesh.getVertex_getSimplex_invalidArgument sampleMesh 5
    (by norm_num [sampleMesh, Mesh.getVerticesNumber])
    (by norm_num [sampleMesh, Mesh.getSimplicesNumber])
  simpa [sampleMesh, Mesh.getVerticesNumber, Mesh.getSimplicesNumber] using h

/-- Claim C4, counterexample: build the spatial index on the sample mesh,
then replace the vertex set; the spatial index is not reset — it still
holds the tree built over the old vertices. -/
theorem setVertices_keeps_tree_counterexample :
    ((sampleMesh.computeKDTree).setVertices [[5]]).tree = some [[0], [1]] ∧
    ((sampleMesh.computeKDTree).setVertices [[5]]).tree ≠ none := by
  constructor
  · rfl
  · simp [Mesh.setVertices, Mesh.computeKDTree, sampleMesh]

/-- Claim C4, amended: after `setVertices` the incidence map, the
bounding-box tables and the memoized-volume flag are reset to their
empty/unset state, but the spatial index over vertices is left untouched
(stale if one was built). -/
theorem Mesh.setVertices_resets_caches_except_tree (m : Mesh)
    (vertices : List (List ℚ)) :
    (m.setVertices vertices).verticesToSimplices = [] ∧
    (m.setVertices vertices).lowerBoundingBoxSimplices = [] ∧
    (m.setVertices vertices).upperBoundingBoxSimplices = [] ∧
    (m.setVertices vertices).isAlreadyComputedVolume = false ∧
    (m.setVertices vertices).tree = m.tree ∧
    (m.setVertices vertices).vertices = vertices ∧
    (m.setVertices vertices).simplices = m.simplices := by
  exact ⟨rfl, rfl, rfl, rfl, rfl, rfl, rfl⟩

/-- Claim C5, the divergence at the failing input: on the unit-interval
sample mesh, compute the volume (1), then replace the simplex set by the
empty one; the memoized-volume flag is still up, so the next `getVolume`
returns the stale value 1, while a fresh computation over the current
(empty) simplex set returns 0. -/
theorem setSimplices_stale_volume_bug :
    (((sampleMesh.getVolume).1.setSimplices []).isAlreadyComputedVolume = true) ∧
    ((((sampleMesh.getVolume).1.setSimplices []).getVolume).2 = 1) ∧
    ((((sampleMesh.getVolume).1.setSimplices []).computeVolume).2 = 0) := by
  have h1 : sampleMesh.getVolume =
      ({ sampleMesh with isAlreadyComputedVolume := true, volume := 1 }, 1) := by
    rw [Mesh.getVolume, if_neg (by simp [sampleMesh])]
    norm_num [Mesh.computeVolume, sampleMesh, Mesh.getSimplicesNumber,
      List.range_succ, simplexVolume, vtx, coordQ]
  rw [h1]
  rw [Mesh.setSimplices, if_neg (by simp [sampleMesh])]
  refine ⟨rfl, ?_, ?_⟩
  · rw [Mesh.getVolume, if_pos rfl]
  · norm_num [Mesh.computeVolume, Mesh.getSimplicesNumber]

/-- Claim C6: replacing the simplex set with a collection equal by value to
the current one is a complete no-op (the mesh record, its caches and its
memoized-volume state included, is returned unchanged), while replacing it
with a different collection installs the new set and clears exactly the
incidence and bounding-box caches — the memoized-volume state, the spatial
index and the vertices are untouched in both cases. -/
theorem Mesh.setSimplices_noop_or_reset (m : Mesh) (simplices : List (List ℕ)) :
    ((m.setSimplices simplices).simplices = simplices) ∧
    ((m.setSimplices simplices).verticesToSimplices =
      if simplices = m.simplices then m.verticesToSimplices else []) ∧
    ((m.setSimplices simplices).lowerBoundingBoxSimplices =
      if simplices = m.simplices then m.lowerBoundingBoxSimplices else []) ∧
    ((m.setSimplices simplices).upperBoundingBoxSimplices =
      if simplices = m.simplices then m.upperBoundingBoxSimplices else []) ∧
    ((m.setSimplices simplices).isAlreadyComputedVolume =
      m.isAlreadyComputedVolume) ∧
    ((m.setSimplices simplices).volume = m.volume) ∧
    ((m.setSimplices simplices).tree = m.tree) ∧
    ((m.setSimplices simplices).vertices = m.vertices) ∧
    (simplices = m.simplices → m.setSimplices simplices = m) := by
  by_cases h : simplices = m.simplices
  · rw [Mesh.setSimplices, if_pos h]
    subst h
    exact ⟨rfl, by rw [if_pos rfl], by rw [if_pos rfl], by rw [if_pos rfl],
      rfl, rfl, rfl, rfl, fun _ => rfl⟩
  · rw [Mesh.setSimplices, if_neg h]
    exact ⟨rfl, by rw [if_neg h], by rw [if_neg h], by rw [if_neg h],
      rfl, rfl, rfl, rfl, fun hc => absurd hc h⟩

theorem checkSimplicesFrom_error_shape (dim nVertices : ℕ) :
    ∀ (i : ℕ) (l : List (List ℕ)),
      checkSimplicesFrom dim nVertices i l = .ok () ∨
        ∃ a b, checkSimplicesFrom dim nVertices i l = .error (.invalidArgument a b)
  | _, [] => Or.inl rfl
  | i, s :: rest => by
    rw [checkSimplicesFrom]
    by_cases h1 : s.length ≠ dim + 1
    · exact Or.inr ⟨i, s.length, by rw [if_pos h1]⟩
    · rw [if_neg h1]
      by_cases h2 : ¬ indicesCheck s nVertices = true
      · exact Or.inr ⟨i, nVertices, by rw [if_pos h2]⟩
      · rw [if_neg h2]
        exact checkSimplicesFrom_error_shape dim nVertices (i + 1) rest

/-- Claim C9: `isValid` is true exactly when `checkValidity` raises
nothing; `checkValidity` succeeds exactly when every simplex has
`dimension + 1` entries, each one a vertex index below the vertex count,
and every failure is an `InvalidArgument` error; a mesh with no simplex is
always valid. -/
theorem Mesh.isValid_iff_checkValidity (m : Mesh) :
    (m.isValid = true ↔ m.checkValidity = .ok ()) ∧
    (m.checkValidity = .ok () ↔
      ∀ s ∈ m.simplices, s.length = m.dim + 1 ∧ ∀ v ∈ s, v < m.getVerticesNumber) ∧
    ((¬ ∀ s ∈ m.simplices,
        s.length = m.dim + 1 ∧ ∀ v ∈ s, v < m.getVerticesNumber) →
      ∃ a b, m.checkValidity = .error (.invalidArgument a b)) ∧
    (m.simplices = [] → m.isValid = true) := by
  have hok := checkSimplicesFrom_ok_iff m.dim m.getVerticesNumber 0 m.simplices
  have hshape := checkSimplicesFrom_error_shape m.dim m.getVerticesNumber 0 m.simplices
  have hbool : m.isValid = true ↔ m.checkValidity = .ok () := by
    rw [Mesh.isValid]
    rcases hcv : m.checkValidity with e | u
    · simp
    · simp
  refine ⟨hbool, hok, ?_, ?_⟩
  · intro hbad
    rcases hshape with h | h
    · exact absurd (hok.mp h) hbad
    · exact h
  · intro hnil
    exact hbool.mpr (hok.mpr (by rw [hnil]; simp))

theorem scanStep_eq_joinMin (p : List ℚ) (vs : List (List ℚ))
    (s : Option (ℚ × ℕ)) (i : ℕ) :
    scanStep p vs s i = joinMin s (scanStep p vs none i) := by
  cases s with
  | none => rfl
  | some di => rfl

theorem joinMin_none_right (a : Option (ℚ × ℕ)) : joinMin a none = a := by
  cases a with
  | none => rfl
  | some di => rfl

theorem joinMin_none_left (b : Option (ℚ × ℕ)) : joinMin none b = b := rfl

theorem joinMin_some_some (da db : ℚ × ℕ) :
    joinMin (some da) (some db) = if db.1 < da.1 then some db else some da := rfl

theorem joinMin_assoc (a b c : Option (ℚ × ℕ)) :
    joinMin (joinMin a b) c = joinMin a (joinMin b c) := by
  cases a with
  | none => simp only [joinMin_none_left]
  | some da =>
    cases b with
    | none => simp only [joinMin_none_right, joinMin_none_left]
    | some db =>
      cases c with
      | none => simp only [joinMin_none_right]
      | some dc =>
        by_cases h1 : db.1 < da.1 <;> by_cases h2 : dc.1 < db.1
        · simp only [joinMin_some_some, if_pos h1, if_pos h2, if_pos (lt_trans h2 h1)]
        · simp only [joinMin_some_some, if_pos h1, if_neg h2]
        · simp only [joinMin_some_some, if_neg h1, if_pos h2]
        · simp only [joinMin_some_some, if_neg h1, if_neg h2,
            if_neg (fun h => h2 (lt_of_lt_of_le h (le_of_not_lt h1)))]

theorem foldl_scanStep_eq_joinMin (p : List ℚ) (vs : List (List ℚ)) :
    ∀ (ys : List ℕ) (s : Option (ℚ × ℕ)),
      ys.foldl (scanStep p vs) s = joinMin s (ys.foldl (scanStep p vs) none)
  | [], s => (joinMin_none_right s).symm
  | y :: ys, s => by
    rw [List.foldl_cons, List.foldl_cons,
      foldl_scanStep_eq_joinMin p vs ys (scanStep p vs s y),
      foldl_scanStep_eq_joinMin p vs ys (scanStep p vs none y),
      scanStep_eq_joinMin p vs s y, joinMin_assoc]

theorem foldl_joinMin_eq :
    ∀ (l : List (Option (ℚ × ℕ))) (s : Option (ℚ × ℕ)),
      l.foldl joinMin s = joinMin s (l.foldl joinMin none)
  | [], s => (joinMin_none_right s).symm
  | a :: l, s => by
    rw [List.foldl_cons, List.foldl_cons, foldl_joinMin_eq l (joinMin s a),
      foldl_joinMin_eq l (joinMin none a), joinMin_assoc]
    rfl

/-- Reduction over consecutive partitions equals the sequential fold over
the concatenation of the partitions. -/
theorem partition_reduce_eq_fold (p : List ℚ) (vs : List (List ℚ)) :
    ∀ blocks : List (List ℕ),
      (blocks.map fun b => b.foldl (scanStep p vs) none).foldl joinMin none =
        blocks.flatten.foldl (scanStep p vs) none
  | [] => rfl
  | b :: blocks => by
    have ih := partition_reduce_eq_fold p vs blocks
    rw [List.map_cons, List.flatten_cons, List.foldl_cons, List.foldl_append,
      foldl_joinMin_eq, joinMin_none_left, ih,
      foldl_scanStep_eq_joinMin p vs blocks.flatten
        (List.foldl (scanStep p vs) none b)]

theorem scanRange_spec (p : List ℚ) (vs : List (List ℚ)) :
    ∀ n : ℕ, 0 < n →
      ∃ d r, (List.range n).foldl (scanStep p vs) none = some (d, r) ∧
        r < n ∧ d = distSq p (vs.getD r []) ∧
        ∀ j < n, d ≤ distSq p (vs.getD j []) ∧
          (distSq p (vs.getD j []) = d → r ≤ j)
  | 0, h => absurd h (by omega)
  | n + 1, _ => by
    rcases Nat.eq_zero_or_pos n with rfl | hn
    · refine ⟨distSq p (vs.getD 0 []), 0, ?_, by omega, rfl, ?_⟩
      · rw [List.range_succ]
        rfl
      · intro j hj
        interval_cases j
        exact ⟨le_refl _, fun _ => le_refl 0⟩
    · rcases scanRange_spec p vs n hn with ⟨d, r, heq, hr, hd, hmin⟩
      rw [List.range_succ, List.foldl_append, heq]
      by_cases hlt : distSq p (vs.getD n []) < d
      · refine ⟨distSq p (vs.getD n []), n, ?_, by omega, rfl, ?_⟩
        · simp only [List.foldl_cons, List.foldl_nil, scanStep, if_pos hlt]
        · intro j hj
          rcases Nat.lt_succ_iff_lt_or_eq.mp hj with hj' | rfl
          · constructor
            · exact le_of_lt (lt_of_lt_of_le hlt (hmin j hj').1)
            · intro habs
              exfalso
              have h1 := (hmin j hj').1
              rw [habs] at h1
              exact absurd (lt_of_lt_of_le hlt h1) (lt_irrefl _)
          · exact ⟨le_refl _, fun _ => le_refl _⟩
      · refine ⟨d, r, ?_, by omega, hd, ?_⟩
        · simp only [List.foldl_cons, List.foldl_nil, scanStep, if_neg hlt]
        · intro j hj
          rcases Nat.lt_succ_iff_lt_or_eq.mp hj with hj' | rfl
          · exact hmin j hj'
          · exact ⟨le_of_not_lt hlt, fun _ => by omega⟩

/-- Claim C2: on a mesh with vertices and no built spatial index, the
brute-force nearest-vertex query returns an index minimizing the squared
Euclidean distance, exact ties broken in favour of the lowest index; the
partitioned parallel reduction (any consecutive partition of the vertex
range, local scans merged left-to-right) returns exactly the sequential
left-to-right fold; the merge is associative; and a query point of the
wrong dimension fails with `InvalidArgument` naming the two dimensions. -/
theorem Mesh.getNearestVertexIndex_bruteforce_spec (m : Mesh) (p : List ℚ)
    (hdim : p.length = m.dim) (htree : treeIsEmpty m.tree = true)
    (hne : m.vertices ≠ []) :
    (∃ r, m.getNearestVertexIndex p = .ok r ∧ r < m.getVerticesNumber ∧
      ∀ j < m.getVerticesNumber,
        distSq p (m.vertices.getD r []) ≤ distSq p (m.vertices.getD j []) ∧
        (distSq p (m.vertices.getD j []) = distSq p (m.vertices.getD r []) →
          r ≤ j)) ∧
    (∀ blocks : List (List ℕ),
      blocks.flatten = List.range m.getVerticesNumber →
      (blocks.map fun b => b.foldl (scanStep p m.vertices) none).foldl
          joinMin none =
        bruteScan p m.vertices) ∧
    (∀ a b c : Option (ℚ × ℕ),
      joinMin (joinMin a b) c = joinMin a (joinMin b c)) ∧
    (∀ q : List ℚ, q.length ≠ m.dim →
      m.getNearestVertexIndex q = .error (.invalidArgument q.length m.dim)) := by
  refine ⟨?_, ?_, joinMin_assoc, ?_⟩
  · have hn : 0 < m.vertices.length := List.length_pos.mpr hne
    rcases scanRange_spec p m.vertices m.vertices.length hn with
      ⟨d, r, heq, hr, hd, hmin⟩
    refine ⟨r, ?_, hr, ?_⟩
    · rw [Mesh.getNearestVertexIndex, if_neg (by rw [hdim]; exact fun h => h rfl),
        if_neg (by rw [htree]; exact fun h => h rfl)]
      rw [bruteNearest, bruteScan, heq]
      rfl
    · intro j hj
      exact ⟨hd ▸ (hmin j hj).1, fun h => (hmin j hj).2 (by rw [h, hd])⟩
  · intro blocks hb
    rw [bruteScan, show m.vertices.length = m.getVerticesNumber from rfl, ← hb,
      partition_reduce_eq_fold]
  · intro q hq
    rw [Mesh.getNearestVertexIndex, if_pos hq]

/-- Claim C2, witness at a concrete input: the sample unit-interval mesh
and the query point at the middle, equidistant from both vertices — the
result index is minimizing and the tie-break picks the lower index. -/
theorem getNearestVertexIndex_bruteforce_spec_witness :
    (∃ r, sampleMesh.getNearestVertexIndex [1 / 2] = .ok r ∧
      r < sampleMesh.getVerticesNumber ∧
      ∀ j < sampleMesh.getVerticesNumber,
        distSq [1 / 2] (sampleMesh.vertices.getD r []) ≤
          distSq [1 / 2] (sampleMesh.vertices.getD j []) ∧
        (distSq [1 / 2] (sampleMesh.vertices.getD j []) =
            distSq [1 / 2] (sampleMesh.vertices.getD r []) → r ≤ j)) ∧
    (∀ blocks : List (List ℕ),
      blocks.flatten = List.range sampleMesh.getVerticesNumber →
      (blocks.map fun b =>
          b.foldl (scanStep [1 / 2] sampleMesh.vertices) none).foldl
          joinMin none =
        bruteScan [1 / 2] sampleMesh.vertices) ∧
    (∀ a b c : Option (ℚ × ℕ),
      joinMin (joinMin a b) c = joinMin a (joinMin b c)) ∧
    (∀ q : List ℚ, q.length ≠ sampleMesh.dim →
      sampleMesh.getNearestVertexIndex q =
        .error (.invalidArgument q.length sampleMesh.dim)) :=
  Mesh.getNearestVertexIndex_bruteforce_spec sampleMesh [1 / 2] rfl rfl
    (by simp [sampleMesh])

theorem getD_set_ne (l : List (List ℕ)) {v w : ℕ} (x : List ℕ) (h : v ≠ w) :
    (l.set v x).getD w [] = l.getD w [] := by
  rw [List.getD_eq_getElem?_getD, List.getElem?_set, if_neg h,
    ← List.getD_eq_getElem?_getD]

theorem prop_getD {P : List ℕ → Prop} (hnil : P []) (l : List (List ℕ))
    (h : ∀ a ∈ l, P a) (v : ℕ) : P (l.getD v []) := by
  by_cases hv : v < l.length
  · rw [List.getD_eq_getElem l [] hv]
    exact h _ (List.getElem_mem hv)
  · rw [List.getD_eq_default l [] (by omega)]
    exact hnil

theorem chain'_append_singleton {R : ℕ → ℕ → Prop} (l : List ℕ) (i : ℕ)
    (hc : List.Chain' R l) (hlast : ∀ x ∈ l, R x i) :
    List.Chain' R (l ++ [i]) := by
  rw [List.chain'_append]
  exact ⟨hc, List.chain'_singleton i, fun x hx y hy => by
    simp only [List.head?_cons, Option.mem_def, Option.some.injEq] at hy
    exact hy ▸ hlast x (List.mem_of_mem_getLast? hx)⟩

theorem foldl_addVertexEntry_le (i : ℕ) :
    ∀ (s : List ℕ) (acc : List (List ℕ)),
      (∀ l ∈ acc, List.Chain' (· ≤ ·) l ∧ ∀ x ∈ l, x ≤ i) →
      ∀ l ∈ s.foldl (addVertexEntry i) acc,
        List.Chain' (· ≤ ·) l ∧ ∀ x ∈ l, x ≤ i
  | [], _, h => h
  | v :: rest, acc, h => by
    rw [List.foldl_cons]
    refine foldl_addVertexEntry_le i rest _ ?_
    intro l hl
    rcases List.mem_or_eq_of_mem_set hl with hmem | rfl
    · exact h l hmem
    · have hold := prop_getD (P := fun l => List.Chain' (· ≤ ·) l ∧ ∀ x ∈ l, x ≤ i)
        ⟨List.chain'_nil, by simp⟩ acc h v
      constructor
      · exact chain'_append_singleton _ i hold.1 fun x hx => hold.2 x hx
      · intro x hx
        rcases List.mem_append.mp hx with hx | hx
        · exact hold.2 x hx
        · simp only [List.mem_singleton] at hx
          omega

theorem buildV2S_sorted_le :
    ∀ (i : ℕ) (ss acc : List (List ℕ)),
      (∀ l ∈ acc, List.Chain' (· ≤ ·) l ∧ ∀ x ∈ l, x < i) →
      ∀ l ∈ buildV2S i ss acc, List.Chain' (· ≤ ·) l
  | _, [], _, h => fun l hl => (h l hl).1
  | i, s :: rest, acc, h => by
    rw [buildV2S]
    refine buildV2S_sorted_le (i + 1) rest _ ?_
    intro l hl
    have := foldl_addVertexEntry_le i s acc
      (fun l hl => ⟨(h l hl).1, fun x hx => le_of_lt ((h l hl).2 x hx)⟩) l hl
    exact ⟨this.1, fun x hx => by have := this.2 x hx; omega⟩

theorem foldl_addVertexEntry_lt (i : ℕ) :
    ∀ (s : List ℕ) (acc : List (List ℕ)), s.Nodup →
      (∀ l ∈ acc, List.Chain' (· < ·) l ∧ ∀ x ∈ l, x ≤ i) →
      (∀ v ∈ s, ∀ x ∈ acc.getD v [], x < i) →
      ∀ l ∈ s.foldl (addVertexEntry i) acc,
        List.Chain' (· < ·) l ∧ ∀ x ∈ l, x ≤ i
  | [], _, _, h, _ => h
  | v :: rest, acc, hnd, h, hfresh => by
    rw [List.foldl_cons]
    have hndr := (List.nodup_cons.mp hnd).2
    have hvnotin := (List.nodup_cons.mp hnd).1
    refine foldl_addVertexEntry_lt i rest _ hndr ?_ ?_
    · intro l hl
      rcases List.mem_or_eq_of_mem_set hl with hmem | rfl
      · exact h l hmem
      · have hchain := prop_getD (P := fun l => List.Chain' (· < ·) l ∧ ∀ x ∈ l, x ≤ i)
          ⟨List.chain'_nil, by simp⟩ acc h v
        have hfr := hfresh v (List.mem_cons_self v rest)
        constructor
        · exact chain'_append_singleton _ i hchain.1 fun x hx => hfr x hx
        · intro x hx
          rcases List.mem_append.mp hx with hx | hx
          · exact hchain.2 x hx
          · simp only [List.mem_singleton] at hx
            omega
    · intro w hw x hx
      have hne : v ≠ w := fun hvw => hvnotin (hvw ▸ hw)
      rw [addVertexEntry, getD_set_ne acc _ hne] at hx
      exact hfresh w (List.mem_cons_of_mem v hw) x hx

theorem buildV2S_sorted_lt :
    ∀ (i : ℕ) (ss acc : List (List ℕ)), (∀ s ∈ ss, s.Nodup) →
      (∀ l ∈ acc, List.Chain' (· < ·) l ∧ ∀ x ∈ l, x < i) →
      ∀ l ∈ buildV2S i ss acc, List.Chain' (· < ·) l
  | _, [], _, _, h => fun l hl => (h l hl).1
  | i, s :: rest, acc, hnd, h => by
    rw [buildV2S]
    refine buildV2S_sorted_lt (i + 1) rest _
      (fun t ht => hnd t (List.mem_cons_of_mem s ht)) ?_
    intro l hl
    have := foldl_addVertexEntry_lt i s acc (hnd s (List.mem_cons_self s rest))
      (fun l hl => ⟨(h l hl).1, fun x hx => le_of_lt ((h l hl).2 x hx)⟩)
      (fun v _ => prop_getD (P := fun l => ∀ x ∈ l, x < i) (by simp) acc
        (fun l hl => (h l hl).2) v) l hl
    exact ⟨this.1, fun x hx => by have := this.2 x hx; omega⟩

theorem foldl_addVertexEntry_bound (i : ℕ) :
    ∀ (s : List ℕ) (acc : List (List ℕ)),
      (∀ l ∈ acc, ∀ x ∈ l, x < i + 1) →
      ∀ l ∈ s.foldl (addVertexEntry i) acc, ∀ x ∈ l, x < i + 1
  | [], _, h => h
  | v :: rest, acc, h => by
    rw [List.foldl_cons]
    refine foldl_addVertexEntry_bound i rest _ ?_
    intro l hl
    rcases List.mem_or_eq_of_mem_set hl with hmem | rfl
    · exact h l hmem
    · intro x hx
      rcases List.mem_append.mp hx with hx | hx
      · exact prop_getD (P := fun l => ∀ x ∈ l, x < i + 1) (by simp) acc h v x hx
      · simp only [List.mem_singleton] at hx
        omega

theorem buildV2S_mem_bound :
    ∀ (i : ℕ) (ss acc : List (List ℕ)),
      (∀ l ∈ acc, ∀ x ∈ l, x < i) →
      ∀ l ∈ buildV2S i ss acc, ∀ x ∈ l, x < i + ss.length
  | _, [], _, h => fun l hl x hx => by
    have := h l hl x hx
    simpa using by omega
  | i, s :: rest, acc, h => by
    rw [buildV2S]
    have hrec := buildV2S_mem_bound (i + 1) rest (s.foldl (addVertexEntry i) acc)
      (foldl_addVertexEntry_bound i s acc fun l hl x hx => by
        have := h l hl x hx; omega)
    intro l hl x hx
    have := hrec l hl x hx
    simp only [List.length_cons]
    omega

/-- A valid mesh one of whose simplices repeats a vertex index: validity
(as modelled from the spec) does not reject duplicates. -/
def dupMesh : Mesh :=
  { dim := 1
    vertices := [[0], [1]]
    simplices := [[0, 0]]
    tree := none
    verticesToSimplices := []
    lowerBoundingBoxSimplices := []
    upperBoundingBoxSimplices := []
    isAlreadyComputedVolume := false
    volume := 0 }

/-- Claim C10, counterexample: on the (valid) mesh whose single simplex is
the degenerate segment `{0, 0}`, the incidence list of vertex 0 produced by
`getVerticesToSimplicesMap` is `[0, 0]` — the simplex index is added once
per occurrence, so the list is not strictly increasing. -/
theorem verticesToSimplicesMap_not_strictly_sorted_counterexample :
    dupMesh.checkValidity = .ok () ∧
    (dupMesh.getVerticesToSimplicesMap).2 = [[0, 0], []] ∧
    ¬ List.Chain' (· < ·) ((dupMesh.getVerticesToSimplicesMap).2.getD 0 []) := by
  refine ⟨rfl, rfl, ?_⟩
  rw [show (dupMesh.getVerticesToSimplicesMap).2 = [[0, 0], []] from rfl]
  simp [List.chain'_cons]

/-- Claim C10, amended: every incidence list produced by the single
ascending pass of `getVerticesToSimplicesMap` is sorted in non-decreasing
order, with every entry a valid simplex index; it is sorted in strictly
increasing order (each simplex index added at most once per vertex list)
whenever no simplex repeats a vertex index — the precondition `isInnerFace`
relies on is the sortedness of these lists. -/
theorem verticesToSimplicesMap_sorted (m : Mesh) :
    (∀ l ∈ computeVerticesToSimplices m, List.Chain' (· ≤ ·) l) ∧
    ((∀ s ∈ m.simplices, s.Nodup) →
      ∀ l ∈ computeVerticesToSimplices m, List.Chain' (· < ·) l) ∧
    (∀ l ∈ computeVerticesToSimplices m, ∀ x ∈ l, x < m.getSimplicesNumber) ∧
    (m.verticesToSimplices = [] →
      (m.getVerticesToSimplicesMap).2 = computeVerticesToSimplices m) := by
  have hinit : ∀ l ∈ List.replicate m.vertices.length ([] : List ℕ),
      List.Chain' (· < ·) l ∧ ∀ x ∈ l, x < 0 := by
    intro l hl
    rw [List.eq_of_mem_replicate hl]
    exact ⟨List.chain'_nil, by simp⟩
  refine ⟨?_, ?_, ?_, ?_⟩
  · refine buildV2S_sorted_le 0 m.simplices _ ?_
    intro l hl
    exact ⟨(hinit l hl).1.imp fun a b h => le_of_lt h, (hinit l hl).2⟩
  · intro hnd
    exact buildV2S_sorted_lt 0 m.simplices _ hnd hinit
  · intro l hl x hx
    have := buildV2S_mem_bound 0 m.simplices _ (fun l hl => (hinit l hl).2) l hl x hx
    simpa [Mesh.getSimplicesNumber] using this
  · intro hc
    exact congrArg Prod.snd (getVerticesToSimplicesMap_eq m (Or.inl hc))

theorem getD_map_range {α : Type} (f : ℕ → α) (d : α) (n j : ℕ) (h : j < n) :
    ((List.range n).map f).getD j d = f j := by
  rw [List.getD_eq_getElem _ _ (by simpa using h), List.getElem_map, List.getElem_range]

theorem foldl_addVertexEntry_length (i : ℕ) :
    ∀ (s : List ℕ) (acc : List (List ℕ)),
      (s.foldl (addVertexEntry i) acc).length = acc.length
  | [], _ => rfl
  | v :: rest, acc => by
    rw [List.foldl_cons, foldl_addVertexEntry_length i rest, addVertexEntry,
      List.length_set]

/-- Total mass a vertex-weight accumulation distributes: the `sum of sums`
of a per-vertex list-of-simplex-volumes table. -/
def weightSumAux (f : ℕ → ℚ) (acc : List (List ℕ)) : ℚ :=
  (acc.map fun l => (l.map f).sum).sum

theorem weightSumAux_set (f : ℕ → ℚ) :
    ∀ (acc : List (List ℕ)) (v : ℕ), v < acc.length → ∀ i : ℕ,
      weightSumAux f (acc.set v (acc.getD v [] ++ [i])) = weightSumAux f acc + f i
  | [], v, hv, _ => absurd hv (by simp)
  | a :: rest, 0, _, i => by
    simp only [weightSumAux, List.set_cons_zero, List.getD_cons_zero, List.map_cons,
      List.sum_cons, List.map_append, List.sum_append, List.map_cons, List.map_nil,
      List.sum_cons, List.sum_nil]
    ring
  | a :: rest, v + 1, hv, i => by
    have hr := weightSumAux_set f rest v (by simpa using hv) i
    simp only [weightSumAux] at hr
    simp only [weightSumAux, List.set_cons_succ, List.getD_cons_succ, List.map_cons,
      List.sum_cons]
    rw [hr]
    ring

theorem weightSumAux_foldl (f : ℕ → ℚ) (i : ℕ) :
    ∀ (s : List ℕ) (acc : List (List ℕ)),
      (∀ v ∈ s, v < acc.length) →
      weightSumAux f (s.foldl (addVertexEntry i) acc) =
        weightSumAux f acc + f i * s.length
  | [], _, _ => by simp
  | v :: rest, acc, h => by
    rw [List.foldl_cons]
    have hlen : ∀ w ∈ rest, w < (addVertexEntry i acc v).length := by
      intro w hw
      rw [addVertexEntry, List.length_set]
      exact h w (List.mem_cons_of_mem v hw)
    rw [weightSumAux_foldl f i rest _ hlen, addVertexEntry,
      weightSumAux_set f acc v (h v (List.mem_cons_self v rest)) i]
    simp only [List.length_cons]
    push_cast
    ring

/-- The running total the ascending pass distributes: each simplex donates
its value once per vertex slot. -/
def volTotal (f : ℕ → ℚ) : ℕ → List (List ℕ) → ℚ
  | _, [] => 0
  | i, s :: rest => f i * s.length + volTotal f (i + 1) rest

theorem weightSumAux_buildV2S (f : ℕ → ℚ) :
    ∀ (i : ℕ) (ss acc : List (List ℕ)),
      (∀ s ∈ ss, ∀ v ∈ s, v < acc.length) →
      weightSumAux f (buildV2S i ss acc) = weightSumAux f acc + volTotal f i ss
  | _, [], _, _ => by simp [buildV2S, volTotal]
  | i, s :: rest, acc, h => by
    rw [buildV2S, volTotal]
    have hrec := weightSumAux_buildV2S f (i + 1) rest (s.foldl (addVertexEntry i) acc)
      (by
        intro t ht v hv
        rw [foldl_addVertexEntry_length]
        exact h t (List.mem_cons_of_mem s ht) v hv)
    rw [hrec, weightSumAux_foldl f i s acc (h s (List.mem_cons_self s rest))]
    ring

theorem volTotal_of_uniform_length (f : ℕ → ℚ) (d : ℕ) :
    ∀ (i : ℕ) (ss : List (List ℕ)),
      (∀ s ∈ ss, s.length = d + 1) →
      volTotal f i ss =
        ((List.range ss.length).map fun t => f (i + t)).sum * (d + 1)
  | _, [], _ => by simp [volTotal]
  | i, s :: rest, h => by
    rw [volTotal, volTotal_of_uniform_length f d (i + 1) rest
      (fun t ht => h t (List.mem_cons_of_mem s ht))]
    simp only [List.length_cons, List.range_succ_eq_map, List.map_cons, List.sum_cons,
      List.map_map, Nat.add_zero]
    rw [h s (List.mem_cons_self s rest)]
    have hmap : (List.range rest.length).map ((fun t => f (i + t)) ∘ Nat.succ) =
        (List.range rest.length).map fun t => f (i + 1 + t) := by
      refine List.map_congr_left ?_
      intro t _
      simp only [Function.comp_apply]
      rw [show i + (t + 1) = i + 1 + t from by omega]
    rw [hmap]
    push_cast
    ring

theorem sum_range_getD (h : List ℕ → ℚ) :
    ∀ l : List (List ℕ),
      ((List.range l.length).map fun i => h (l.getD i [])).sum = (l.map h).sum
  | [] => by simp
  | a :: t => by
    simp only [List.length_cons, List.range_succ_eq_map, List.map_cons, List.sum_cons,
      List.getD_cons_zero, List.map_map, List.map_cons, List.sum_cons]
    have hmap : (List.range t.length).map ((fun i => h ((a :: t).getD i [])) ∘ Nat.succ) =
        (List.range t.length).map fun i => h (t.getD i []) := by
      refine List.map_congr_left ?_
      intro i _
      simp [List.getD_cons_succ]
    rw [hmap, sum_range_getD h t]

theorem computeV2S_mem_bound (m : Mesh) :
    ∀ l ∈ computeVerticesToSimplices m, ∀ x ∈ l, x < m.getSimplicesNumber := by
  intro l hl x hx
  have hinit : ∀ l ∈ List.replicate m.vertices.length ([] : List ℕ), ∀ x ∈ l, x < 0 := by
    intro l hl
    rw [List.eq_of_mem_replicate hl]
    simp
  have := buildV2S_mem_bound 0 m.simplices _ hinit l hl x hx
  simpa [Mesh.getSimplicesNumber] using this

theorem computeV2S_length (m : Mesh) :
    (computeVerticesToSimplices m).length = m.getVerticesNumber := by
  rw [computeVerticesToSimplices, buildV2S_length]
  simp [Mesh.getVerticesNumber]

theorem list_sum_div (c : ℚ) (h : ℕ → ℚ) :
    ∀ l : List ℕ, (l.map fun x => h x / c).sum = (l.map h).sum / c
  | [] => by simp
  | x :: t => by
    simp only [List.map_cons, List.sum_cons, list_sum_div c h t]
    rw [add_div]

/-- Claim C7: each integration weight is the sum of the volumes of the
simplices of that vertex's incidence list divided by `dimension + 1`, and
on a valid mesh (with coherent caches) the weights sum to the total volume
`computeVolume` computes — mass conservation, exactly, in rational
arithmetic. -/
theorem Mesh.computeWeights_mass_conservation (m : Mesh)
    (hval : m.checkValidity = .ok ()) (hcache : m.cachesCoherent) :
    (∀ i < m.getVerticesNumber,
      m.computeWeights.getD i 0 =
        (((computeVerticesToSimplices m).getD i []).map fun j =>
          simplexVolume m j).sum / (m.dim + 1)) ∧
    m.computeWeights.sum = (m.computeVolume).2 := by
  have hgood := (checkSimplicesFrom_ok_iff m.dim m.getVerticesNumber 0 m.simplices).mp hval
  have hmap : (m.getVerticesToSimplicesMap).2 = computeVerticesToSimplices m :=
    congrArg Prod.snd (getVerticesToSimplicesMap_eq m hcache)
  have hbound := computeV2S_mem_bound m
  have hgf : ∀ i : ℕ,
      (((computeVerticesToSimplices m).getD i []).map fun j =>
        (((List.range m.getSimplicesNumber).map fun t => simplexVolume m t).getD j 0)) =
      ((computeVerticesToSimplices m).getD i []).map fun j => simplexVolume m j := by
    intro i
    refine List.map_congr_left ?_
    intro j hj
    have hjlt : j < m.getSimplicesNumber :=
      prop_getD (P := fun l => ∀ x ∈ l, x < m.getSimplicesNumber) (by simp)
        (computeVerticesToSimplices m) hbound i j hj
    exact getD_map_range _ 0 _ j hjlt
  have hw : m.computeWeights =
      (List.range m.getVerticesNumber).map fun i =>
        (((computeVerticesToSimplices m).getD i []).map fun j =>
          simplexVolume m j).sum / (m.dim + 1) := by
    simp only [Mesh.computeWeights, hmap]
    refine List.map_congr_left ?_
    intro i _
    rw [hgf i]
  constructor
  · intro i hi
    rw [hw, getD_map_range _ 0 _ i hi]
  · rw [hw,
      list_sum_div (m.dim + 1)
        (fun i => (((computeVerticesToSimplices m).getD i []).map fun j =>
          simplexVolume m j).sum)
        (List.range m.getVerticesNumber),
      show List.range m.getVerticesNumber =
        List.range (computeVerticesToSimplices m).length from by rw [computeV2S_length],
      sum_range_getD (fun l => (l.map fun j => simplexVolume m j).sum)
        (computeVerticesToSimplices m)]
    have hpre : ∀ s ∈ m.simplices, ∀ v ∈ s,
        v < (List.replicate m.vertices.length ([] : List ℕ)).length := by
      intro s hs v hv
      rw [List.length_replicate]
      exact (hgood s hs).2 v hv
    have hws : (((computeVerticesToSimplices m)).map fun l =>
        (l.map fun j => simplexVolume m j).sum).sum =
        (m.computeVolume).2 * (m.dim + 1) := by
      have h0 : (((computeVerticesToSimplices m)).map fun l =>
          (l.map fun j => simplexVolume m j).sum).sum =
          weightSumAux (fun j => simplexVolume m j) (computeVerticesToSimplices m) := rfl
      rw [h0, computeVerticesToSimplices,
        weightSumAux_buildV2S (fun j => simplexVolume m j) 0 m.simplices _ hpre,
        volTotal_of_uniform_length (fun j => simplexVolume m j) m.dim 0 m.simplices
          (fun s hs => (hgood s hs).1)]
      have hz : weightSumAux (fun j => simplexVolume m j)
          (List.replicate m.vertices.length []) = 0 := by
        simp [weightSumAux, List.map_replicate]
      rw [hz, zero_add]
      simp only [Nat.zero_add]
      rfl
    rw [hws, mul_div_cancel_right₀ _ (by positivity)]

/-- Claim C7, witness at a concrete input: the unit-interval sample mesh
(volume 1, each vertex weighted by half the single segment volume). -/
theorem computeWeights_mass_conservation_witness :
    (∀ i < sampleMesh.getVerticesNumber,
      sampleMesh.computeWeights.getD i 0 =
        (((computeVerticesToSimplices sampleMesh).getD i []).map fun j =>
          simplexVolume sampleMesh j).sum / (sampleMesh.dim + 1)) ∧
    sampleMesh.computeWeights.sum = (sampleMesh.computeVolume).2 :=
  Mesh.computeWeights_mass_conservation sampleMesh rfl (Or.inl rfl)

/-- The homogeneous right-hand side of the barycentric system: the query
point with a final 1 appended (`Point v(point); v.add(1.0)`). -/
def homPoint (d : ℕ) (p : List ℚ) : Fin (d + 1) → ℚ :=
  fun i => if (i : ℕ) < d then coordQ p (i : ℕ) else 1

/-- Modelled external dense solve (`SquareMatrix::solveLinearSystem`): the
unique solution of the square system when the matrix is invertible —
written by Cramer's rule, with which any exact solver agrees — and an
error on a singular matrix. -/
def solveLinearSystem {n : ℕ} (M : Matrix (Fin n) (Fin n) ℚ) (b : Fin n → ℚ) :
    Except Err (Fin n → ℚ) :=
  if detQ n M = 0 then .error .singular
  else .ok fun i => detQ n (M.updateColumn i b) / detQ n M

theorem solveLinearSystem_mulVec {n : ℕ} (M : Matrix (Fin n) (Fin n) ℚ)
    (b x : Fin n → ℚ) (h : solveLinearSystem M b = .ok x) : M.mulVec x = b := by
  rw [solveLinearSystem] at h
  by_cases hd : detQ n M = 0
  · rw [if_pos hd] at h
    simp at h
  · rw [if_neg hd] at h
    have hdet : M.det ≠ 0 := by rwa [← detQ_eq_det]
    have hx : x = fun i => detQ n (M.updateColumn i b) / detQ n M := by
      cases h
      rfl
    have hx2 : x = (M.det)⁻¹ • Matrix.cramer M b := by
      rw [hx]
      funext i
      simp only [Pi.smul_apply, smul_eq_mul]
      rw [detQ_eq_det, detQ_eq_det, Matrix.cramer_apply, div_eq_inv_mul]
    rw [hx2, Matrix.mulVec_smul, Matrix.mulVec_cramer, smul_smul,
      inv_mul_cancel₀ hdet, one_smul]

/-- The barycentric coordinates of a point with respect to a simplex, as
the claim describes them: the solution of the simplex-matrix system for the
homogeneous point (no bounding-box shortcut); `none` when the simplex
matrix is singular. -/
def barycentricCoordinates (m : Mesh) (p : List ℚ) (index : ℕ) : Option (List ℚ) :=
  match solveLinearSystem (simplexMatrixOf m index) (homPoint m.dim p) with
  | .ok x => some (List.ofFn x)
  | .error _ => none

/-- The claim-side containment predicate: the barycentric coordinates exist
and all lie in the closed unit interval. -/
def simplexContainsPoint (m : Mesh) (p : List ℚ) (index : ℕ) : Bool :=
  match barycentricCoordinates m p index with
  | some c => c.all fun x => decide (0 ≤ x) && decide (x ≤ 1)
  | none => false

/-- The bounding-box pre-filter at the head of
`Mesh::checkPointInSimplexWithCoordinates`: active only when the
bounding-box cache is nonempty, it rejects the point when some coordinate
falls outside the simplex's box. -/
def bbReject (m : Mesh) (p : List ℚ) (index : ℕ) : Bool :=
  decide (m.lowerBoundingBoxSimplices.length > 0) &&
    ((List.range m.dim).any fun i =>
      decide (coordQ p i < coordQ (m.lowerBoundingBoxSimplices.getD index []) i) ||
      decide (coordQ p i > coordQ (m.upperBoundingBoxSimplices.getD index []) i))

/-- Exception-propagating sequencing of the modelled C++ control flow: the
second step runs only when the first raised nothing. -/
def andThenE {α β : Type} : Except Err α → (α → Except Err β) → Except Err β
  | .error e, _ => .error e
  | .ok a, f => f a

theorem andThenE_ok {α β : Type} (a : α) (f : α → Except Err β) :
    andThenE (.ok a) f = f a := rfl

theorem andThenE_error {α β : Type} (e : Err) (f : α → Except Err β) :
    andThenE (.error e) f = .error e := rfl

/-- Point-in-simplex test with returned barycentric coordinates
(`Mesh::checkPointInSimplexWithCoordinates`): pre-filter by the cached
bounding box when present (the out-parameter is untouched there, modelled
as `[]`); otherwise build the simplex matrix, solve for the homogeneous
point, and test every coordinate against `[0, 1]`. -/
def Mesh.checkPointInSimplexWithCoordinates (m : Mesh) (p : List ℚ) (index : ℕ) :
    Except Err (Bool × List ℚ) :=
  if bbReject m p index then .ok (false, [])
  else
    andThenE (m.buildSimplexMatrix index) fun M =>
      andThenE (solveLinearSystem M (homPoint m.dim p)) fun x =>
        let coordinates := List.ofFn x
        .ok ((List.range (m.dim + 1)).all fun i =>
          decide (0 ≤ coordinates.getD i 0) && decide (coordinates.getD i 0 ≤ 1),
          coordinates)

/-- Point-in-simplex test (`Mesh::checkPointInSimplex`), discarding the
coordinates. -/
def Mesh.checkPointInSimplex (m : Mesh) (p : List ℚ) (index : ℕ) : Except Err Bool :=
  andThenE (m.checkPointInSimplexWithCoordinates p index) fun bc => .ok bc.1

/-- Componentwise minimum of the vertex sample (`Mesh::getLowerBound`,
`vertices_.getMin()`). -/
def Mesh.getLowerBound (m : Mesh) : List ℚ :=
  (List.range m.dim).map fun k => listMinQ (m.vertices.map fun v => coordQ v k)

/-- Componentwise maximum of the vertex sample (`Mesh::getUpperBound`). -/
def Mesh.getUpperBound (m : Mesh) : List ℚ :=
  (List.range m.dim).map fun k => listMaxQ (m.vertices.map fun v => coordQ v k)

/-- The overall bounding-box test of `Mesh::contains`
(`Interval(getLowerBound(), getUpperBound()).contains(point)`). -/
def boundingBoxContains (m : Mesh) (p : List ℚ) : Bool :=
  (List.range m.dim).all fun k =>
    decide (coordQ m.getLowerBound k ≤ coordQ p k) &&
    decide (coordQ p k ≤ coordQ m.getUpperBound k)

/-- The candidate loops of `Mesh::contains`: first positive
`checkPointInSimplex` wins; exceptions propagate. -/
def anySimplexContains (m : Mesh) (p : List ℚ) : List ℕ → Except Err Bool
  | [] => .ok false
  | i :: rest =>
    andThenE (m.checkPointInSimplex p i) fun found =>
      if found then .ok true else anySimplexContains m p rest

/-- Containment query (`Mesh::contains`): reject via the overall bounding
box; otherwise check the simplices incident to the nearest vertex (making
the incidence map — and, with it, the per-simplex bounding boxes — up to
date first), and fall back to an exhaustive scan over all simplices. -/
def Mesh.contains (m : Mesh) (p : List ℚ) : Except Err Bool :=
  if ¬ boundingBoxContains m p then .ok false
  else
    andThenE (m.getNearestVertexIndex p) fun nearestIndex =>
      let mv := m.getVerticesToSimplicesMap
      andThenE (anySimplexContains mv.1 p (mv.2.getD nearestIndex [])) fun found =>
        if found then .ok true
        else anySimplexContains mv.1 p (List.range mv.1.getSimplicesNumber)

/-- The candidate loop of
`Mesh::getNearestVertexAndSimplexIndicesWithCoordinates`: the first
candidate containing the point is returned with its coordinates (the
coordinates the failed checks wrote into the out-parameter are reset at the
end by the caller, so they are dropped here). -/
def findContainingSimplex (m : Mesh) (p : List ℚ) :
    List ℕ → Except Err (Option (ℕ × List ℚ))
  | [] => .ok none
  | j :: rest =>
    andThenE (m.checkPointInSimplexWithCoordinates p j) fun bc =>
      if bc.1 then .ok (some (j, bc.2)) else findContainingSimplex m p rest

/-- Nearest vertex and enclosing simplex with coordinates
(`Mesh::getNearestVertexAndSimplexIndicesWithCoordinates`): the result
list holds the nearest vertex index, and additionally the index of the
first incident simplex containing the point, whose barycentric coordinates
are returned; when no incident simplex contains the point the coordinates
are reset to empty — there is no fallback scan over the other
simplices. -/
def Mesh.getNearestVertexAndSimplexIndicesWithCoordinates (m : Mesh) (p : List ℚ) :
    Except Err (List ℕ × List ℚ) :=
  if p.length ≠ m.dim then .error (.invalidArgument p.length m.dim)
  else
    andThenE (m.getNearestVertexIndex p) fun nearestIndex =>
      let mv := m.getVerticesToSimplicesMap
      andThenE (findContainingSimplex mv.1 p (mv.2.getD nearestIndex [])) fun r =>
        match r with
        | some jc => .ok ([nearestIndex, jc.1], jc.2)
        | none => .ok ([nearestIndex], [])

/-- The mesh with its incidence and bounding-box caches freshly built: the
first component `Mesh::getVerticesToSimplicesMap` returns on a mesh with
coherent caches. -/
def buildCached (m : Mesh) : Mesh :=
  { m with
    verticesToSimplices := computeVerticesToSimplices m
    lowerBoundingBoxSimplices := computeLowerBBs m
    upperBoundingBoxSimplices := computeUpperBBs m }

theorem getVerticesToSimplicesMap_eq_buildCached (m : Mesh) (h : m.cachesCoherent) :
    m.getVerticesToSimplicesMap = (buildCached m, computeVerticesToSimplices m) :=
  getVerticesToSimplicesMap_eq m h

theorem foldl_max_ge_seed : ∀ (xs : List ℚ) (b : ℚ), b ≤ xs.foldl max b
  | [], b => le_refl b
  | x :: t, b => le_trans (le_max_left b x) (foldl_max_ge_seed t (max b x))

theorem foldl_max_ge_mem : ∀ (xs : List ℚ) (b a : ℚ), a ∈ xs → a ≤ xs.foldl max b
  | [], _, _, ha => absurd ha (by simp)
  | x :: t, b, a, ha => by
    rw [List.foldl_cons]
    rcases List.mem_cons.mp ha with rfl | ht
    · exact le_trans (le_max_right b a) (foldl_max_ge_seed t (max b a))
    · exact foldl_max_ge_mem t (max b x) a ht

theorem le_listMaxQ (xs : List ℚ) (a : ℚ) (ha : a ∈ xs) : a ≤ listMaxQ xs := by
  cases xs with
  | nil => simp at ha
  | cons x t =>
    rw [listMaxQ]
    rcases List.mem_cons.mp ha with rfl | ht
    · exact foldl_max_ge_seed t a
    · exact foldl_max_ge_mem t x a ht

theorem foldl_min_le_seed : ∀ (xs : List ℚ) (b : ℚ), xs.foldl min b ≤ b
  | [], b => le_refl b
  | x :: t, b => le_trans (foldl_min_le_seed t (min b x)) (min_le_left b x)

theorem foldl_min_le_mem : ∀ (xs : List ℚ) (b a : ℚ), a ∈ xs → xs.foldl min b ≤ a
  | [], _, _, ha => absurd ha (by simp)
  | x :: t, b, a, ha => by
    rw [List.foldl_cons]
    rcases List.mem_cons.mp ha with rfl | ht
    · exact le_trans (foldl_min_le_seed t (min b a)) (min_le_right b a)
    · exact foldl_min_le_mem t (min b x) a ht

theorem listMinQ_le (xs : List ℚ) (a : ℚ) (ha : a ∈ xs) : listMinQ xs ≤ a := by
  cases xs with
  | nil => simp at ha
  | cons x t =>
    rw [listMinQ]
    rcases List.mem_cons.mp ha with rfl | ht
    · exact foldl_min_le_seed t a
    · exact foldl_min_le_mem t x a ht

theorem simplexMatrix_mulVec_rows (m : Mesh) (p : List ℚ) (i : ℕ)
    (x : Fin (m.dim + 1) → ℚ)
    (h : (simplexMatrixOf m i).mulVec x = homPoint m.dim p) :
    (∑ j, x j) = 1 ∧
    ∀ k, k < m.dim →
      (∑ j : Fin (m.dim + 1), vtx m i (j : ℕ) k * x j) = coordQ p k := by
  constructor
  · have hrow := congrFun h ⟨m.dim, Nat.lt_succ_self m.dim⟩
    simp only [Matrix.mulVec, Matrix.dotProduct, simplexMatrixOf, Matrix.of_apply,
      homPoint, lt_irrefl, if_false, one_mul] at hrow
    exact hrow
  · intro k hk
    have hrow := congrFun h ⟨k, Nat.lt_succ_of_lt hk⟩
    simp only [Matrix.mulVec, Matrix.dotProduct, simplexMatrixOf, Matrix.of_apply,
      homPoint, hk, if_true] at hrow
    exact hrow

theorem convex_upper_bound {n : ℕ} (w x : Fin n → ℚ) (c B : ℚ)
    (hsum : (∑ j, x j) = 1) (hx0 : ∀ j, 0 ≤ x j)
    (hc : (∑ j, w j * x j) = c) (hB : ∀ j, w j ≤ B) : c ≤ B := by
  have h1 : (∑ j, w j * x j) ≤ ∑ j, B * x j :=
    Finset.sum_le_sum fun j _ => mul_le_mul_of_nonneg_right (hB j) (hx0 j)
  rw [← Finset.mul_sum, hsum, mul_one, hc] at h1
  exact h1

theorem convex_lower_bound {n : ℕ} (w x : Fin n → ℚ) (c B : ℚ)
    (hsum : (∑ j, x j) = 1) (hx0 : ∀ j, 0 ≤ x j)
    (hc : (∑ j, w j * x j) = c) (hB : ∀ j, B ≤ w j) : B ≤ c := by
  have h1 : (∑ j, B * x j) ≤ ∑ j, w j * x j :=
    Finset.sum_le_sum fun j _ => mul_le_mul_of_nonneg_right (hB j) (hx0 j)
  rw [← Finset.mul_sum, hsum, mul_one, hc] at h1
  exact h1

theorem getD_map_of_lt {α β : Type} (f : α → β) (l : List α) (d : β) (d' : α)
    (i : ℕ) (h : i < l.length) : (l.map f).getD i d = f (l.getD i d') := by
  rw [List.getD_eq_getElem _ _ (by simpa using h), List.getElem_map,
    List.getD_eq_getElem _ _ h]

theorem all_range_getD (q : ℚ → Bool) (l : List ℚ) (n : ℕ) (h : l.length = n) :
    ((List.range n).all fun i => q (l.getD i 0)) = l.all q := by
  rw [Bool.eq_iff_iff, List.all_eq_true, List.all_eq_true]
  constructor
  · intro hall a ha
    rcases List.mem_iff_getElem.mp ha with ⟨i, hilen, rfl⟩
    have hq : q (l.getD i 0) = true := hall i (List.mem_range.mpr (h ▸ hilen))
    rwa [List.getD_eq_getElem _ _ hilen] at hq
  · intro hall i hi
    have hilen : i < l.length := h ▸ List.mem_range.mp hi
    rw [List.getD_eq_getElem _ _ hilen]
    exact hall _ (List.getElem_mem hilen)

theorem simplexContainsPoint_iff_exists (m : Mesh) (p : List ℚ) (i : ℕ) :
    simplexContainsPoint m p i = true ↔
      ∃ x : Fin (m.dim + 1) → ℚ,
        solveLinearSystem (simplexMatrixOf m i) (homPoint m.dim p) = .ok x ∧
        ∀ j, 0 ≤ x j ∧ x j ≤ 1 := by
  rcases hs : solveLinearSystem (simplexMatrixOf m i) (homPoint m.dim p) with e | x
  · rw [simplexContainsPoint, barycentricCoordinates, hs]
    simp only [Bool.false_eq_true, false_iff]
    rintro ⟨x', hx', _⟩
    cases hx'
  · rw [simplexContainsPoint, barycentricCoordinates, hs]
    show ((List.ofFn x).all fun y => decide (0 ≤ y) && decide (y ≤ 1)) = true ↔ _
    constructor
    · intro hall
      refine ⟨x, rfl, fun j => ?_⟩
      have hmem : x j ∈ List.ofFn x := (List.mem_ofFn x (x j)).mpr ⟨j, rfl⟩
      have := List.all_eq_true.mp hall (x j) hmem
      simpa using this
    · rintro ⟨x', hx', hj⟩
      injection hx' with hx'
      subst hx'
      refine List.all_eq_true.mpr ?_
      intro a ha
      rcases (List.mem_ofFn x a).mp ha with ⟨j, rfl⟩
      simpa using hj j

theorem vtx_bounds (m : Mesh) (i : ℕ)
    (hgood : ∀ s ∈ m.simplices,
      s.length = m.dim + 1 ∧ ∀ v ∈ s, v < m.getVerticesNumber)
    (hi : i < m.getSimplicesNumber) (k : ℕ) (hk : k < m.dim)
    (j : Fin (m.dim + 1)) :
    coordQ m.getLowerBound k ≤ vtx m i (j : ℕ) k ∧
    vtx m i (j : ℕ) k ≤ coordQ m.getUpperBound k ∧
    listMinQ ((m.simplices.getD i []).map fun v =>
      coordQ (m.vertices.getD v []) k) ≤ vtx m i (j : ℕ) k ∧
    vtx m i (j : ℕ) k ≤ listMaxQ ((m.simplices.getD i []).map fun v =>
      coordQ (m.vertices.getD v []) k) := by
  have hsmem : m.simplices.getD i [] ∈ m.simplices := by
    rw [List.getD_eq_getElem _ _ hi]
    exact List.getElem_mem hi
  have hlen := (hgood _ hsmem).1
  have hjlen : (j : ℕ) < (m.simplices.getD i []).length := by
    rw [hlen]
    exact j.isLt
  have hentry : (m.simplices.getD i []).getD (j : ℕ) 0 ∈ m.simplices.getD i [] := by
    rw [List.getD_eq_getElem _ _ hjlen]
    exact List.getElem_mem hjlen
  have hv := (hgood _ hsmem).2 _ hentry
  have hvmem : m.vertices.getD ((m.simplices.getD i []).getD (j : ℕ) 0) [] ∈
      m.vertices := by
    rw [List.getD_eq_getElem _ _ hv]
    exact List.getElem_mem hv
  have hmemmap : coordQ (m.vertices.getD ((m.simplices.getD i []).getD (j : ℕ) 0) []) k ∈
      m.vertices.map fun v => coordQ v k := List.mem_map_of_mem _ hvmem
  have hmemmap2 : coordQ (m.vertices.getD ((m.simplices.getD i []).getD (j : ℕ) 0) []) k ∈
      (m.simplices.getD i []).map fun v => coordQ (m.vertices.getD v []) k :=
    List.mem_map_of_mem _ hentry
  refine ⟨?_, ?_, listMinQ_le _ _ hmemmap2, le_listMaxQ _ _ hmemmap2⟩
  · show (m.getLowerBound).getD k 0 ≤ vtx m i (j : ℕ) k
    rw [Mesh.getLowerBound, getD_map_range _ 0 _ k hk]
    exact listMinQ_le _ _ hmemmap
  · show vtx m i (j : ℕ) k ≤ (m.getUpperBound).getD k 0
    rw [Mesh.getUpperBound, getD_map_range _ 0 _ k hk]
    exact le_listMaxQ _ _ hmemmap

theorem simplexContainsPoint_bounds (m : Mesh) (p : List ℚ) (i : ℕ)
    (hgood : ∀ s ∈ m.simplices,
      s.length = m.dim + 1 ∧ ∀ v ∈ s, v < m.getVerticesNumber)
    (hi : i < m.getSimplicesNumber)
    (hcon : simplexContainsPoint m p i = true) :
    ∀ k, k < m.dim →
      (coordQ m.getLowerBound k ≤ coordQ p k ∧
        coordQ p k ≤ coordQ m.getUpperBound k) ∧
      (listMinQ ((m.simplices.getD i []).map fun v =>
          coordQ (m.vertices.getD v []) k) ≤ coordQ p k ∧
        coordQ p k ≤ listMaxQ ((m.simplices.getD i []).map fun v =>
          coordQ (m.vertices.getD v []) k)) := by
  rcases (simplexContainsPoint_iff_exists m p i).mp hcon with ⟨x, hsol, hx⟩
  have hmv := solveLinearSystem_mulVec _ _ _ hsol
  rcases simplexMatrix_mulVec_rows m p i x hmv with ⟨hsum, hrows⟩
  intro k hk
  refine ⟨⟨?_, ?_⟩, ?_, ?_⟩
  · exact convex_lower_bound (fun j => vtx m i (j : ℕ) k) x _ _ hsum
      (fun j => (hx j).1) (hrows k hk)
      (fun j => (vtx_bounds m i hgood hi k hk j).1)
  · exact convex_upper_bound (fun j => vtx m i (j : ℕ) k) x _ _ hsum
      (fun j => (hx j).1) (hrows k hk)
      (fun j => (vtx_bounds m i hgood hi k hk j).2.1)
  · exact convex_lower_bound (fun j => vtx m i (j : ℕ) k) x _ _ hsum
      (fun j => (hx j).1) (hrows k hk)
      (fun j => (vtx_bounds m i hgood hi k hk j).2.2.1)
  · exact convex_upper_bound (fun j => vtx m i (j : ℕ) k) x _ _ hsum
      (fun j => (hx j).1) (hrows k hk)
      (fun j => (vtx_bounds m i hgood hi k hk j).2.2.2)

theorem buildCached_dim (m : Mesh) : (buildCached m).dim = m.dim := rfl

theorem buildCached_lower (m : Mesh) :
    (buildCached m).lowerBoundingBoxSimplices = computeLowerBBs m := rfl

theorem buildCached_upper (m : Mesh) :
    (buildCached m).upperBoundingBoxSimplices = computeUpperBBs m := rfl

theorem bbReject_buildCached_false (m : Mesh) (p : List ℚ) (i : ℕ)
    (hgood : ∀ s ∈ m.simplices,
      s.length = m.dim + 1 ∧ ∀ v ∈ s, v < m.getVerticesNumber)
    (hi : i < m.getSimplicesNumber)
    (hcon : simplexContainsPoint m p i = true) :
    bbReject (buildCached m) p i = false := by
  have hb := simplexContainsPoint_bounds m p i hgood hi hcon
  rw [bbReject]
  have hany : ((List.range (buildCached m).dim).any fun k =>
      decide (coordQ p k <
        coordQ ((buildCached m).lowerBoundingBoxSimplices.getD i []) k) ||
      decide (coordQ p k >
        coordQ ((buildCached m).upperBoundingBoxSimplices.getD i []) k)) = false := by
    rw [List.any_eq_false]
    intro k hk
    have hk' : k < m.dim := List.mem_range.mp hk
    have hlow : coordQ ((buildCached m).lowerBoundingBoxSimplices.getD i []) k =
        listMinQ ((m.simplices.getD i []).map fun v =>
          coordQ (m.vertices.getD v []) k) := by
      rw [buildCached_lower, computeLowerBBs,
        getD_map_of_lt (simplexLowerBB m) m.simplices [] [] i hi]
      show (simplexLowerBB m (m.simplices.getD i [])).getD k 0 = _
      rw [simplexLowerBB, getD_map_range _ 0 _ k hk']
    have hup : coordQ ((buildCached m).upperBoundingBoxSimplices.getD i []) k =
        listMaxQ ((m.simplices.getD i []).map fun v =>
          coordQ (m.vertices.getD v []) k) := by
      rw [buildCached_upper, computeUpperBBs,
        getD_map_of_lt (simplexUpperBB m) m.simplices [] [] i hi]
      show (simplexUpperBB m (m.simplices.getD i [])).getD k 0 = _
      rw [simplexUpperBB, getD_map_range _ 0 _ k hk']
    rw [hlow, hup]
    have hbk := (hb k hk').2
    simp only [Bool.or_eq_true, decide_eq_true_eq, not_or, not_lt, gt_iff_lt]
    exact ⟨hbk.1, hbk.2⟩
  rw [hany, Bool.and_false]

theorem buildSimplexMatrix_buildCached_ok (m : Mesh) (i : ℕ)
    (hi : i < m.getSimplicesNumber) :
    (buildCached m).buildSimplexMatrix i = .ok (simplexMatrixOf m i) := by
  have h : ¬ i ≥ (buildCached m).getSimplicesNumber := not_le.mpr hi
  rw [Mesh.buildSimplexMatrix, if_neg h]
  rfl

theorem checkPointInSimplexWithCoordinates_eval_true (m : Mesh) (p : List ℚ)
    (i : ℕ)
    (hgood : ∀ s ∈ m.simplices,
      s.length = m.dim + 1 ∧ ∀ v ∈ s, v < m.getVerticesNumber)
    (hi : i < m.getSimplicesNumber)
    (hcon : simplexContainsPoint m p i = true) :
    (buildCached m).checkPointInSimplexWithCoordinates p i =
      .ok (true, (barycentricCoordinates m p i).getD []) := by
  rcases (simplexContainsPoint_iff_exists m p i).mp hcon with ⟨x, hsol, _⟩
  have hbb := bbReject_buildCached_false m p i hgood hi hcon
  have hcoords : (barycentricCoordinates m p i).getD [] = List.ofFn x := by
    rw [barycentricCoordinates, hsol]
    rfl
  rw [Mesh.checkPointInSimplexWithCoordinates, if_neg (by simp [hbb]),
    buildSimplexMatrix_buildCached_ok m i hi, andThenE_ok,
    show homPoint (buildCached m).dim p = homPoint m.dim p from rfl,
    hsol, andThenE_ok, hcoords]
  show Except.ok
      ((List.range ((buildCached m).dim + 1)).all fun k =>
        decide (0 ≤ (List.ofFn x).getD k 0) && decide ((List.ofFn x).getD k 0 ≤ 1),
        List.ofFn x) =
    Except.ok (true, List.ofFn x)
  have hA : ((List.range (m.dim + 1)).all fun k =>
      decide (0 ≤ (List.ofFn x).getD k 0) && decide ((List.ofFn x).getD k 0 ≤ 1)) =
      (List.ofFn x).all fun y => decide (0 ≤ y) && decide (y ≤ 1) :=
    all_range_getD (fun y => decide (0 ≤ y) && decide (y ≤ 1)) (List.ofFn x)
      (m.dim + 1) (List.length_ofFn x)
  rw [buildCached_dim, hA]
  rw [simplexContainsPoint, barycentricCoordinates, hsol] at hcon
  rw [show ((List.ofFn x).all fun y => decide (0 ≤ y) && decide (y ≤ 1)) = true
    from hcon]

theorem checkPointInSimplexWithCoordinates_eval_false (m : Mesh) (p : List ℚ)
    (i : ℕ) (hi : i < m.getSimplicesNumber)
    (hdet : detQ (m.dim + 1) (simplexMatrixOf m i) ≠ 0)
    (hcon : simplexContainsPoint m p i = false) :
    ∃ c, (buildCached m).checkPointInSimplexWithCoordinates p i =
      .ok (false, c) := by
  by_cases hbb : bbReject (buildCached m) p i = true
  · exact ⟨[], by rw [Mesh.checkPointInSimplexWithCoordinates, if_pos hbb]⟩
  · obtain ⟨x, hsol⟩ : ∃ x, solveLinearSystem (simplexMatrixOf m i)
        (homPoint m.dim p) = .ok x := by
      rw [solveLinearSystem, if_neg hdet]
      exact ⟨_, rfl⟩
    refine ⟨List.ofFn x, ?_⟩
    rw [Mesh.checkPointInSimplexWithCoordinates, if_neg hbb,
      buildSimplexMatrix_buildCached_ok m i hi, andThenE_ok,
      show homPoint (buildCached m).dim p = homPoint m.dim p from rfl,
      hsol, andThenE_ok]
    show Except.ok
        ((List.range ((buildCached m).dim + 1)).all fun k =>
          decide (0 ≤ (List.ofFn x).getD k 0) && decide ((List.ofFn x).getD k 0 ≤ 1),
          List.ofFn x) =
      Except.ok (false, List.ofFn x)
    have hA : ((List.range (m.dim + 1)).all fun k =>
        decide (0 ≤ (List.ofFn x).getD k 0) && decide ((List.ofFn x).getD k 0 ≤ 1)) =
        (List.ofFn x).all fun y => decide (0 ≤ y) && decide (y ≤ 1) :=
      all_range_getD (fun y => decide (0 ≤ y) && decide (y ≤ 1)) (List.ofFn x)
        (m.dim + 1) (List.length_ofFn x)
    rw [buildCached_dim, hA]
    rw [simplexContainsPoint, barycentricCoordinates, hsol] at hcon
    rw [show ((List.ofFn x).all fun y => decide (0 ≤ y) && decide (y ≤ 1)) = false
      from hcon]

theorem checkPointInSimplex_eval (m : Mesh) (p : List ℚ) (i : ℕ)
    (hgood : ∀ s ∈ m.simplices,
      s.length = m.dim + 1 ∧ ∀ v ∈ s, v < m.getVerticesNumber)
    (hi : i < m.getSimplicesNumber)
    (hdet : detQ (m.dim + 1) (simplexMatrixOf m i) ≠ 0) :
    (buildCached m).checkPointInSimplex p i =
      .ok (simplexContainsPoint m p i) := by
  rcases hc : simplexContainsPoint m p i with _ | _
  · rcases checkPointInSimplexWithCoordinates_eval_false m p i hi hdet hc with ⟨c, hcc⟩
    rw [Mesh.checkPointInSimplex, hcc, andThenE_ok]
  · rw [Mesh.checkPointInSimplex,
      checkPointInSimplexWithCoordinates_eval_true m p i hgood hi hc, andThenE_ok]

theorem anySimplexContains_eval (m : Mesh) (p : List ℚ)
    (hgood : ∀ s ∈ m.simplices,
      s.length = m.dim + 1 ∧ ∀ v ∈ s, v < m.getVerticesNumber)
    (hdet : ∀ i < m.getSimplicesNumber,
      detQ (m.dim + 1) (simplexMatrixOf m i) ≠ 0) :
    ∀ l : List ℕ, (∀ i ∈ l, i < m.getSimplicesNumber) →
      anySimplexContains (buildCached m) p l =
        .ok (l.any fun i => simplexContainsPoint m p i)
  | [], _ => rfl
  | i :: rest, hl => by
    have hi := hl i (List.mem_cons_self i rest)
    rw [anySimplexContains, checkPointInSimplex_eval m p i hgood hi (hdet i hi),
      andThenE_ok]
    rcases hc : simplexContainsPoint m p i with _ | _
    · rw [if_neg (by simp), anySimplexContains_eval m p hgood hdet rest
        (fun j hj => hl j (List.mem_cons_of_mem i hj))]
      simp [hc]
    · rw [if_pos rfl]
      simp [hc]

theorem findContainingSimplex_eval (m : Mesh) (p : List ℚ)
    (hgood : ∀ s ∈ m.simplices,
      s.length = m.dim + 1 ∧ ∀ v ∈ s, v < m.getVerticesNumber)
    (hdet : ∀ i < m.getSimplicesNumber,
      detQ (m.dim + 1) (simplexMatrixOf m i) ≠ 0) :
    ∀ l : List ℕ, (∀ i ∈ l, i < m.getSimplicesNumber) →
      ((∀ i ∈ l, simplexContainsPoint m p i = false) ∧
        findContainingSimplex (buildCached m) p l = .ok none) ∨
      (∃ j ∈ l, simplexContainsPoint m p j = true ∧
        findContainingSimplex (buildCached m) p l =
          .ok (some (j, (barycentricCoordinates m p j).getD [])))
  | [], _ => Or.inl ⟨by simp, rfl⟩
  | i :: rest, hl => by
    have hi := hl i (List.mem_cons_self i rest)
    rcases hc : simplexContainsPoint m p i with _ | _
    · rcases checkPointInSimplexWithCoordinates_eval_false m p i hi (hdet i hi) hc
        with ⟨c, hcc⟩
      have hrw : findContainingSimplex (buildCached m) p (i :: rest) =
          findContainingSimplex (buildCached m) p rest := by
        rw [findContainingSimplex, hcc, andThenE_ok, if_neg (by simp)]
      rcases findContainingSimplex_eval m p hgood hdet rest
          (fun j hj => hl j (List.mem_cons_of_mem i hj)) with
        ⟨hall, hres⟩ | ⟨j, hj, hcj, hres⟩
      · refine Or.inl ⟨?_, hrw ▸ hres⟩
        intro t ht
        rcases List.mem_cons.mp ht with rfl | ht'
        · exact hc
        · exact hall t ht'
      · exact Or.inr ⟨j, List.mem_cons_of_mem i hj, hcj, hrw ▸ hres⟩
    · have hcc := checkPointInSimplexWithCoordinates_eval_true m p i hgood hi hc
      refine Or.inr ⟨i, List.mem_cons_self i rest, hc, ?_⟩
      rw [findContainingSimplex, hcc, andThenE_ok, if_pos rfl]

theorem boundingBox_reject_no_simplex (m : Mesh) (p : List ℚ)
    (hgood : ∀ s ∈ m.simplices,
      s.length = m.dim + 1 ∧ ∀ v ∈ s, v < m.getVerticesNumber)
    (hbbc : boundingBoxContains m p = false) :
    ∀ i < m.getSimplicesNumber, simplexContainsPoint m p i = false := by
  intro i hi
  by_contra h
  have hcon : simplexContainsPoint m p i = true := by
    revert h
    rcases simplexContainsPoint m p i with _ | _ <;> simp
  have hb := simplexContainsPoint_bounds m p i hgood hi hcon
  have hall : boundingBoxContains m p = true := by
    rw [boundingBoxContains, List.all_eq_true]
    intro k hk
    have hk' := List.mem_range.mp hk
    have := (hb k hk').1
    simp only [Bool.and_eq_true, decide_eq_true_eq]
    exact ⟨this.1, this.2⟩
  rw [hall] at hbbc
  cases hbbc

theorem getNearestVertexIndex_ok_lt (m : Mesh) (p : List ℚ)
    (hdim : p.length = m.dim) (hne : m.vertices ≠ [])
    (htree : m.tree = none ∨ m.tree = some m.vertices) :
    ∃ r, m.getNearestVertexIndex p = .ok r ∧ r < m.getVerticesNumber := by
  have hn : 0 < m.vertices.length := List.length_pos.mpr hne
  rcases scanRange_spec p m.vertices m.vertices.length hn with ⟨d, r, heq, hr, _, _⟩
  have hbn : bruteNearest p m.vertices = r := by
    rw [bruteNearest, bruteScan, heq]
    rfl
  refine ⟨r, ?_, hr⟩
  rcases htree with h | h
  · rw [Mesh.getNearestVertexIndex, if_neg (by rw [hdim]; exact fun hh => hh rfl),
      if_neg (fun hh => hh (by rw [h]; rfl)), hbn]
  · rw [Mesh.getNearestVertexIndex, if_neg (by rw [hdim]; exact fun hh => hh rfl),
      if_pos ?_]
    · rw [h]
      show Except.ok (treeQuery m.vertices p) = Except.ok r
      rw [treeQuery, hbn]
    · rw [h]
      show ¬ (m.vertices.isEmpty = true)
      simp only [List.isEmpty_iff]
      exact hne

/-- Claim C1: on a valid mesh (nonempty vertex set, coherent caches, spatial
index absent or built over the current vertices, invertible simplex
matrices), `contains p` returns true exactly when some simplex's
barycentric coordinates for `p` — the solution of the
`(dimension+1) x (dimension+1)` simplex-matrix system for the homogeneous
point — all lie in the closed interval `[0, 1]`: the overall bounding-box
pre-reject, the nearest-vertex candidate phase with its per-simplex
bounding-box pre-filter, and the exhaustive fallback scan never change this
result. -/
theorem Mesh.contains_iff_barycentric (m : Mesh) (p : List ℚ)
    (hdim : p.length = m.dim)
    (hval : m.checkValidity = .ok ())
    (hne : m.vertices ≠ [])
    (hcache : m.cachesCoherent)
    (htree : m.tree = none ∨ m.tree = some m.vertices)
    (hdet : ∀ i < m.getSimplicesNumber,
      detQ (m.dim + 1) (simplexMatrixOf m i) ≠ 0) :
    m.contains p =
      .ok (decide (∃ i < m.getSimplicesNumber,
        simplexContainsPoint m p i = true)) := by
  have hgood := (checkSimplicesFrom_ok_iff m.dim m.getVerticesNumber 0 m.simplices).mp hval
  rcases hbbc : boundingBoxContains m p with _ | _
  · rw [Mesh.contains, if_pos (by simp [hbbc])]
    have hnone := boundingBox_reject_no_simplex m p hgood hbbc
    have hdecide : (decide (∃ i < m.getSimplicesNumber,
        simplexContainsPoint m p i = true)) = false := by
      simp only [decide_eq_false_iff_not]
      rintro ⟨i, hi, hci⟩
      rw [hnone i hi] at hci
      cases hci
    rw [hdecide]
  · rw [Mesh.contains, if_neg (by simp [hbbc])]
    rcases getNearestVertexIndex_ok_lt m p hdim hne htree with ⟨r, hok, hr⟩
    rw [hok, andThenE_ok, getVerticesToSimplicesMap_eq_buildCached m hcache]
    show andThenE (anySimplexContains (buildCached m) p
        ((computeVerticesToSimplices m).getD r []))
      (fun found => if found then .ok true
        else anySimplexContains (buildCached m) p
          (List.range (buildCached m).getSimplicesNumber)) = _
    have hcand : ∀ i ∈ (computeVerticesToSimplices m).getD r [],
        i < m.getSimplicesNumber :=
      prop_getD (P := fun l => ∀ x ∈ l, x < m.getSimplicesNumber) (by simp) _
        (computeV2S_mem_bound m) r
    rw [anySimplexContains_eval m p hgood hdet _ hcand, andThenE_ok]
    rcases hany : ((computeVerticesToSimplices m).getD r []).any
        (fun i => simplexContainsPoint m p i) with _ | _
    · rw [if_neg (by simp)]
      have hrange : ∀ i ∈ List.range (buildCached m).getSimplicesNumber,
          i < m.getSimplicesNumber := fun i hi => List.mem_range.mp hi
      rw [anySimplexContains_eval m p hgood hdet _ hrange]
      congr 1
      rw [Bool.eq_iff_iff, List.any_eq_true, decide_eq_true_eq]
      constructor
      · rintro ⟨i, hi, hfi⟩
        exact ⟨i, List.mem_range.mp hi, hfi⟩
      · rintro ⟨i, hi, hfi⟩
        exact ⟨i, List.mem_range.mpr hi, hfi⟩
    · rw [if_pos rfl]
      rcases List.any_eq_true.mp hany with ⟨j, hjmem, hcj⟩
      have hdecide : decide (∃ i < m.getSimplicesNumber,
          simplexContainsPoint m p i = true) = true := by
        rw [decide_eq_true_eq]
        exact ⟨j, hcand j hjmem, by simpa using hcj⟩
      rw [hdecide]

/-- Claim C8: on a valid mesh (same hypotheses as the containment theorem),
`getNearestVertexAndSimplexIndicesWithCoordinates` returns the nearest
vertex index and, when some simplex incident to that nearest vertex
contains the point, also such a simplex's index together with the point's
barycentric coordinates; when no incident simplex contains the point it
returns only the vertex index and empty coordinates — with no condition on
the remaining simplices, i.e. it never falls back to scanning them, even
when an exhaustive scan would find an enclosing simplex. -/
theorem Mesh.getNearestVertexAndSimplexIndicesWithCoordinates_spec (m : Mesh)
    (p : List ℚ)
    (hdim : p.length = m.dim)
    (hval : m.checkValidity = .ok ())
    (hne : m.vertices ≠ [])
    (hcache : m.cachesCoherent)
    (htree : m.tree = none ∨ m.tree = some m.vertices)
    (hdet : ∀ i < m.getSimplicesNumber,
      detQ (m.dim + 1) (simplexMatrixOf m i) ≠ 0) :
    ∃ nearestIndex, m.getNearestVertexIndex p = .ok nearestIndex ∧
      nearestIndex < m.getVerticesNumber ∧
      ((∀ j ∈ (computeVerticesToSimplices m).getD nearestIndex [],
          simplexContainsPoint m p j = false) →
        m.getNearestVertexAndSimplexIndicesWithCoordinates p =
          .ok ([nearestIndex], [])) ∧
      ((∃ j ∈ (computeVerticesToSimplices m).getD nearestIndex [],
          simplexContainsPoint m p j = true) →
        ∃ j ∈ (computeVerticesToSimplices m).getD nearestIndex [],
          simplexContainsPoint m p j = true ∧
          m.getNearestVertexAndSimplexIndicesWithCoordinates p =
            .ok ([nearestIndex, j], (barycentricCoordinates m p j).getD [])) := by
  have hgood := (checkSimplicesFrom_ok_iff m.dim m.getVerticesNumber 0 m.simplices).mp hval
  rcases getNearestVertexIndex_ok_lt m p hdim hne htree with ⟨r, hok, hr⟩
  have hbody : m.getNearestVertexAndSimplexIndicesWithCoordinates p =
      andThenE (findContainingSimplex (buildCached m) p
        ((computeVerticesToSimplices m).getD r []))
        (fun rr => match rr with
          | some jc => .ok ([r, jc.1], jc.2)
          | none => .ok ([r], [])) := by
    rw [Mesh.getNearestVertexAndSimplexIndicesWithCoordinates,
      if_neg (by rw [hdim]; exact fun hh => hh rfl),
      hok, andThenE_ok, getVerticesToSimplicesMap_eq_buildCached m hcache]
  have hcand : ∀ i ∈ (computeVerticesToSimplices m).getD r [],
      i < m.getSimplicesNumber :=
    prop_getD (P := fun l => ∀ x ∈ l, x < m.getSimplicesNumber) (by simp) _
      (computeV2S_mem_bound m) r
  have heval := findContainingSimplex_eval m p hgood hdet
    ((computeVerticesToSimplices m).getD r []) hcand
  refine ⟨r, hok, hr, ?_, ?_⟩
  · intro hall
    rcases heval with ⟨_, hres⟩ | ⟨j, hj, hcj, _⟩
    · rw [hbody, hres, andThenE_ok]
    · rw [hall j hj] at hcj
      cases hcj
  · rintro ⟨j0, hj0, hcj0⟩
    rcases heval with ⟨hall, _⟩ | ⟨j, hj, hcj, hres⟩
    · rw [hall j0 hj0] at hcj0
      cases hcj0
    · exact ⟨j, hj, hcj, by rw [hbody, hres, andThenE_ok]⟩

/-- Claim C1, witness at a concrete input: the unit-interval sample mesh
and the midpoint query. -/
theorem contains_iff_barycentric_witness :
    sampleMesh.contains [1 / 2] =
      .ok (decide (∃ i < sampleMesh.getSimplicesNumber,
        simplexContainsPoint sampleMesh [1 / 2] i = true)) :=
  Mesh.contains_iff_barycentric sampleMesh [1 / 2] rfl rfl
    (by simp [sampleMesh]) (Or.inl rfl) (Or.inl rfl) (by
      intro i hi
      have hi1 : i < 1 := hi
      interval_cases i
      norm_num [detQ, simplexMatrixOf, vtx, coordQ, sampleMesh, Fin.sum_univ_succ,
        Fin.succAbove, Matrix.submatrix, Matrix.of_apply])

/-- Claim C8, witness at a concrete input: the unit-interval sample mesh
and the midpoint query. -/
theorem getNearestVertexAndSimplexIndicesWithCoordinates_spec_witness :
    ∃ nearestIndex,
      sampleMesh.getNearestVertexIndex [1 / 2] = .ok nearestIndex ∧
      nearestIndex < sampleMesh.getVerticesNumber ∧
      ((∀ j ∈ (computeVerticesToSimplices sampleMesh).getD nearestIndex [],
          simplexContainsPoint sampleMesh [1 / 2] j = false) →
        sampleMesh.getNearestVertexAndSimplexIndicesWithCoordinates [1 / 2] =
          .ok ([nearestIndex], [])) ∧
      ((∃ j ∈ (computeVerticesToSimplices sampleMesh).getD nearestIndex [],
          simplexContainsPoint sampleMesh [1 / 2] j = true) →
        ∃ j ∈ (computeVerticesToSimplices sampleMesh).getD nearestIndex [],
          simplexContainsPoint sampleMesh [1 / 2] j = true ∧
          sampleMesh.getNearestVertexAndSimplexIndicesWithCoordinates [1 / 2] =
            .ok ([nearestIndex, j],
              (barycentricCoordinates sampleMesh [1 / 2] j).getD [])) :=
  Mesh.getNearestVertexAndSimplexIndicesWithCoordinates_spec sampleMesh [1 / 2]
    rfl rfl (by simp [sampleMesh]) (Or.inl rfl) (Or.inl rfl) (by
      intro i hi
      have hi1 : i < 1 := hi
      interval_cases i
      norm_num [detQ, simplexMatrixOf, vtx, coordQ, sampleMesh, Fin.sum_univ_succ,
        Fin.succAbove, Matrix.submatrix, Matrix.of_apply])
